import Mathlib

/-!
# iix: input registry, service operation and relay loop

A shallow embedding of `src/iix.c`.

* Pointers to `struct iix_input` are `Option Nat`: `none` is `NULL`, `some a` is the node
  stored at address `a` of `State.memory`.
* `fd_set` is the membership function of the set (one bit per descriptor); the macros
  `FD_SET`, `FD_CLR` and `FD_ISSET` are embedded on the descriptors they are defined for,
  `0 ≤ d < FD_SETSIZE` (`fd_defined`).
* The results of system calls (`calloc`, `open`, `stat`, `fcntl`, `select`, `read`, `write`,
  `fork`, ...) are inputs of the embedded functions.
* Loops that follow pointers take a fuel argument and return `none` when it runs out;
  the loops driven by system-call results consume a list of results and return `none`
  when the list is exhausted before the loop ends.
-/

namespace Iix

/-! ## Data model -/

/-- Pointer to a `struct iix_input`: `none` is `NULL`. -/
abbrev Pointer := Option Nat

/-- The `struct iix_input` record. -/
structure iix_input where
  descriptor : Int
  previous : Pointer
  next : Pointer
deriving DecidableEq, Repr

/-- The `fd_set` type, as its membership bits. In C the set holds `FD_SETSIZE` bits, one
for each descriptor `d` with `0 ≤ d < FD_SETSIZE`; the bits read here at other indices
stand for nothing in the program, whose macros are undefined there (see `fd_defined`). -/
abbrev fd_set := Int → Bool

/-- The `struct iix_inputs` record. -/
structure iix_inputs where
  descriptors : fd_set
  highest_descriptor : Int
  head : Pointer
  tail : Pointer

/-- The `struct iix_pty` record. -/
structure iix_pty where
  master : Int
  slave : Int
deriving DecidableEq, Repr

/-- The lines the program writes to the error stream with `perror` and `fprintf(stderr, ...)`. -/
inductive Diagnostic where
  | enable_blocking_getfl
  | enable_blocking_setfl
  | add_file_input_open
  | add_pipe_input_stat
  | add_pipe_input_not_a_pipe
  | add_pipe_input_open
  | allocate_input_calloc
  | multiplex_select
  | usage
deriving DecidableEq, Repr

/-- The program state: the heap cells that hold `struct iix_input` nodes, the globals
`inputs`, `pty` and `multiplexing`, and the lines written to the error stream so far. -/
structure State where
  memory : Nat → iix_input
  inputs : iix_inputs
  pty : iix_pty
  multiplexing : Bool
  diagnostics : List Diagnostic

def STDIN_FILENO : Int := 0

def STDOUT_FILENO : Int := 1

def EXIT_SUCCESS : Int := 0

def EXIT_FAILURE : Int := 1

def EINTR : Int := 4

/-- A zeroed `struct iix_input`, as `calloc` returns it. -/
def zeroed : iix_input := ⟨0, none, none⟩

/-- The state at program start: static storage is zero-initialised and
`multiplexing` is initialised to `false`. -/
def initial : State :=
  { memory := fun _ => zeroed
    inputs := ⟨fun _ => false, 0, none, none⟩
    pty := ⟨0, 0⟩
    multiplexing := false
    diagnostics := [] }

/-- The constant `FD_SETSIZE` of `sys/select.h`, as on Linux. -/
def FD_SETSIZE : Int := 1024

/-- The macros `FD_ISSET`, `FD_SET` and `FD_CLR` are defined on this descriptor: it
indexes one of the `FD_SETSIZE` bits of an `fd_set`. On any other descriptor they reach
outside the set (in `struct iix_inputs`, into the fields that follow `descriptors`) and
C gives them no meaning. -/
def fd_defined (descriptor : Int) : Bool :=
  decide (0 ≤ descriptor) && decide (descriptor < FD_SETSIZE)

/-- The macro `FD_ISSET`, where it is defined (`fd_defined descriptor`). -/
def FD_ISSET (descriptor : Int) (set : fd_set) : Bool := set descriptor

/-- The macro `FD_SET`, where it is defined (`fd_defined descriptor`). -/
def FD_SET (descriptor : Int) (set : fd_set) : fd_set :=
  fun d => if d = descriptor then true else set d

/-- The macro `FD_CLR`, where it is defined (`fd_defined descriptor`). -/
def FD_CLR (descriptor : Int) (set : fd_set) : fd_set :=
  fun d => if d = descriptor then false else set d

/-- Store `node` at address `a`. -/
def store (a : Nat) (node : iix_input) (s : State) : State :=
  { s with memory := fun x => if x = a then node else s.memory x }

/-- The assignment `p->next = q`. -/
def set_next (p : Nat) (q : Pointer) (s : State) : State :=
  store p { s.memory p with next := q } s

/-- The assignment `p->previous = q`. -/
def set_previous (p : Nat) (q : Pointer) (s : State) : State :=
  store p { s.memory p with previous := q } s

/-- Write one line to the error stream (`perror`, `fprintf(stderr, ...)`). -/
def perror (line : Diagnostic) (s : State) : State :=
  { s with diagnostics := s.diagnostics ++ [line] }

/-! ## Input registry -/

/-- Function `link_input`. -/
def link_input (input : Nat) (s : State) : State :=
  let s1 :=
    if s.inputs.head = none then { s with inputs := { s.inputs with head := some input } }
    else s
  match s1.inputs.tail with
  | none => { s1 with inputs := { s1.inputs with tail := some input } }
  | some tail =>
    let s2 := set_next tail (some input) s1
    let s3 := set_previous input s2.inputs.tail s2
    { s3 with inputs := { s3.inputs with tail := some input } }

/-- Function `unlink_input`. -/
def unlink_input (input : Nat) (s : State) : State :=
  let s1 :=
    match (s.memory input).previous with
    | some previous => set_next previous (s.memory input).next s
    | none => s
  let s2 :=
    match (s1.memory input).next with
    | some next => set_previous next (s1.memory input).previous s1
    | none => s1
  let s3 :=
    if some input = s2.inputs.head then
      { s2 with inputs := { s2.inputs with head := (s2.memory input).next } }
    else s2
  if some input = s3.inputs.tail then
    { s3 with inputs := { s3.inputs with tail := (s3.memory input).previous } }
  else s3

/-- Function `track_descriptor`. -/
def track_descriptor (descriptor : Int) (s : State) : State :=
  let s1 :=
    if !FD_ISSET descriptor s.inputs.descriptors then
      { s with inputs := { s.inputs with descriptors := FD_SET descriptor s.inputs.descriptors } }
    else s
  if s1.inputs.highest_descriptor < descriptor then
    { s1 with inputs := { s1.inputs with highest_descriptor := descriptor } }
  else s1

/-- The `while (input)` loop of `find_highest_descriptor`, from `input` backwards. -/
def find_highest_loop : Nat → Pointer → State → Option State
  | _, none, s => some s
  | 0, some _, _ => none
  | fuel + 1, some input, s =>
    let s1 :=
      if (s.memory input).descriptor > s.inputs.highest_descriptor then
        if FD_ISSET (s.memory input).descriptor s.inputs.descriptors then
          { s with inputs := { s.inputs with highest_descriptor := (s.memory input).descriptor } }
        else s
      else s
    find_highest_loop fuel (s1.memory input).previous s1

/-- Function `find_highest_descriptor`. -/
def find_highest_descriptor (fuel : Nat) (s : State) : Option State :=
  find_highest_loop fuel s.inputs.tail s

/-- Function `untrack_descriptor`. -/
def untrack_descriptor (fuel : Nat) (descriptor : Int) (s : State) : Option State :=
  let s1 :=
    if FD_ISSET descriptor s.inputs.descriptors then
      { s with inputs := { s.inputs with descriptors := FD_CLR descriptor s.inputs.descriptors } }
    else s
  if s1.inputs.highest_descriptor = descriptor then find_highest_descriptor fuel s1
  else some s1

/-- Function `allocate_input`; `cell` is what `calloc` returns (`none` when it fails, else the
address of a zeroed node). -/
def allocate_input (cell : Pointer) (descriptor : Int) (s : State) : Bool × State :=
  match cell with
  | none => (false, perror .allocate_input_calloc s)
  | some input =>
    let s1 := store input zeroed s
    let s2 := store input { s1.memory input with descriptor := descriptor } s1
    (true, link_input input s2)

/-- Function `add_input`. -/
def add_input (cell : Pointer) (descriptor : Int) (s : State) : Bool × State :=
  match allocate_input cell descriptor s with
  | (false, s1) => (false, s1)
  | (true, s1) => (true, track_descriptor descriptor s1)

/-- Return values of the two `fcntl` calls of one `enable_blocking` call. -/
structure Fcntl where
  getfl : Int
  setfl : Int
deriving DecidableEq, Repr

/-- Function `enable_blocking`. The flag word of the descriptor lives in the kernel; the registry
never reads it. -/
def enable_blocking (fcntl : Fcntl) (s : State) : Bool × State :=
  if fcntl.getfl = -1 then (false, perror .enable_blocking_getfl s)
  else if fcntl.setfl = -1 then (false, perror .enable_blocking_setfl s)
  else (true, s)

/-- Function `remove_input`; `fcntl` holds the results of `enable_blocking` for standard input.
The calls `close` and `free` act on the descriptor and on the freed cell only, neither
of which the registry reads afterwards. -/
def remove_input (fuel : Nat) (fcntl : Fcntl) (input : Nat) (s : State) : Option State :=
  let s0 :=
    if (s.memory input).descriptor = STDIN_FILENO then (enable_blocking fcntl s).2
    else s
  match untrack_descriptor fuel (s0.memory input).descriptor s0 with
  | none => none
  | some s1 => some (unlink_input input s1)

/-- Function `add_standard_input`. -/
def add_standard_input (fcntl : Fcntl) (cell : Pointer) (s : State) : Bool × State :=
  match enable_blocking fcntl s with
  | (false, s1) => (false, s1)
  | (true, s1) => add_input cell STDIN_FILENO s1

/-- Function `add_file_input`; `descriptor` is what `open` returns. -/
def add_file_input (descriptor : Int) (cell : Pointer) (s : State) : Bool × State :=
  if descriptor = -1 then (false, perror .add_file_input_open s)
  else add_input cell descriptor s

/-- Function `add_pipe_input`; `stat` is what `stat` returns, `fifo` is `S_ISFIFO` of the mode it
reports, `descriptor` is what `open` returns. -/
def add_pipe_input (stat : Int) (fifo : Bool) (descriptor : Int) (cell : Pointer)
    (s : State) : Bool × State :=
  if stat = -1 then (false, perror .add_pipe_input_stat s)
  else if !fifo then (false, perror .add_pipe_input_not_a_pipe s)
  else if descriptor = -1 then (false, perror .add_pipe_input_open s)
  else add_input cell descriptor s

/-! ## Service operation -/

/-- The system-call results of one call of `service`: the return value of `read`, the
contents of `buffer` after it, the return values of the successive `write` calls, and
the `fcntl` results used when the input is removed. -/
structure ServiceEv where
  pending : Int
  buffer : List Nat
  written : List Int
  fcntl : Fcntl

/-- What one call of `service` did: its return value, the state it leaves, the
descriptor it wrote to and the bytes that descriptor accepted, in order. -/
structure Serviced where
  ok : Bool
  state : State
  output : Int
  delivered : List Nat

/-- The `while (pending)` loop of `service`: each `write(output, buffer, pending)` that
returns `w` hands the first `w` bytes of `buffer` to the output. Returns whether the loop
ended without a write failure, and the bytes accepted. -/
def write_loop (buffer : List Nat) : List Int → Int → Option (Bool × List Nat)
  | [], pending => if pending = 0 then some (true, []) else none
  | w :: rest, pending =>
    if pending = 0 then some (true, [])
    else if w = -1 then some (false, [])
    else
      match write_loop buffer rest (pending - w) with
      | none => none
      | some (ok, delivered) => some (ok, buffer.take w.toNat ++ delivered)

/-- Function `service`. -/
def service (fuel : Nat) (ev : ServiceEv) (input : Nat) (output : Int) (s : State) :
    Option Serviced :=
  let descriptor := (s.memory input).descriptor
  let output := if descriptor = output then STDOUT_FILENO else output
  if ev.pending = -1 then some ⟨false, s, output, []⟩
  else if ev.pending = 0 then
    if descriptor = STDIN_FILENO then some ⟨false, s, output, []⟩
    else
      match remove_input fuel ev.fcntl input s with
      | none => none
      | some s1 => some ⟨true, s1, output, []⟩
  else
    match write_loop ev.buffer ev.written ev.pending with
    | none => none
    | some (ok, delivered) => some ⟨ok, s, output, delivered⟩

/-! ## Relay loop -/

/-- Function `stop_multiplexing`. -/
def stop_multiplexing (s : State) : State :=
  { s with multiplexing := false }

/-- One iteration of the `while (multiplexing)` loop, as the environment decides it: the
return value of `select`, `errno` after it, the set `active` it leaves, whether the
handler of `SIGINT`, `SIGHUP` or `SIGTERM` ran during the iteration, and the system-call
results of the `service` call on each node. -/
structure SelectEv where
  pending : Int
  errno : Int
  active : fd_set
  signal : Bool
  calls : Nat → ServiceEv

/-- The third argument of `select` in `multiplex`. -/
def nfds (s : State) : Int := s.inputs.highest_descriptor + 1

/-- The inner `while (input)` loop of `multiplex`, from `input` on. Returns the state and
the nodes on which `service` was called, in order. -/
def scan (fuel : Nat) (active : fd_set) (calls : Nat → ServiceEv) :
    Nat → Pointer → State → Option (State × List Nat)
  | _, none, s => some (s, [])
  | 0, some _, _ => none
  | n + 1, some input, s =>
    let next := (s.memory input).next
    if FD_ISSET (s.memory input).descriptor active then
      match service fuel (calls input) input s.pty.master s with
      | none => none
      | some r =>
        if !r.ok then some (stop_multiplexing r.state, [input])
        else
          match scan fuel active calls n next r.state with
          | none => none
          | some (s1, serviced) => some (s1, input :: serviced)
    else scan fuel active calls n next s

/-- The `while (multiplexing)` loop of `multiplex`. The flag is read at the loop head
only, so a handler run anywhere in an iteration acts as one run at its start. Returns the
return value of `multiplex`, the final state and the nodes serviced, in order. -/
def multiplex_loop (fuel : Nat) : List SelectEv → State → Option (Bool × State × List Nat)
  | [], s => if s.multiplexing then none else some (true, s, [])
  | ev :: rest, s =>
    if !s.multiplexing then some (true, s, [])
    else
      let s0 := if ev.signal then stop_multiplexing s else s
      if ev.pending = -1 then
        let s1 := if ev.errno ≠ EINTR then perror .multiplex_select s0 else s0
        some (false, stop_multiplexing s1, [])
      else if ev.pending = 0 then multiplex_loop fuel rest s0
      else
        match scan fuel ev.active ev.calls fuel s0.inputs.head s0 with
        | none => none
        | some (s1, serviced) =>
          match multiplex_loop fuel rest s1 with
          | none => none
          | some (result, s2, later) => some (result, s2, serviced ++ later)

/-- The system-call results of one call of `multiplex`. -/
structure MultiplexEnv where
  stdin_fcntl : Fcntl
  stdin_cell : Pointer
  master_cell : Pointer
  events : List SelectEv

/-- Function `multiplex`. -/
def multiplex (fuel : Nat) (env : MultiplexEnv) (s : State) :
    Option (Bool × State × List Nat) :=
  match add_standard_input env.stdin_fcntl env.stdin_cell s with
  | (false, s1) => some (false, s1, [])
  | (true, s1) =>
    match add_input env.master_cell s1.pty.master s1 with
    | (false, s2) => some (false, s2, [])
    | (true, s2) => multiplex_loop fuel env.events { s2 with multiplexing := true }

/-! ## Command line and `main` -/

/-- One result of `getopt` together with the system-call results of handling it. -/
inductive Argument where
  | h
  | f (descriptor : Int) (cell : Pointer)
  | p (stat : Int) (fifo : Bool) (descriptor : Int) (cell : Pointer)
  | other
deriving DecidableEq, Repr

/-- How `parse_command_line` ends: `exit(status)` or `return result`. -/
inductive Parsed where
  | exited (status : Int)
  | returned (result : Bool)
deriving DecidableEq, Repr

/-- Function `parse_command_line`; `arguments` are the options `getopt` reports before it returns
`-1`, and `target` tells whether `optind < argc` then holds. -/
def parse_command_line : List Argument → Bool → State → Parsed × State
  | [], target, s =>
    if !target then (.returned false, perror .usage s) else (.returned true, s)
  | .h :: _, _, s => (.exited EXIT_SUCCESS, s)
  | .f descriptor cell :: rest, target, s =>
    match add_file_input descriptor cell s with
    | (false, s1) => (.returned false, s1)
    | (true, s1) => parse_command_line rest target s1
  | .p stat fifo descriptor cell :: rest, target, s =>
    match add_pipe_input stat fifo descriptor cell s with
    | (false, s1) => (.returned false, s1)
    | (true, s1) => parse_command_line rest target s1
  | .other :: _, _, s => (.returned false, perror .usage s)

/-- Function `open_pty`; `master` and `slave` are what `open_pty_master` and `open_pty_slave`
return. -/
def open_pty (master slave : Int) (s : State) : Bool × State :=
  let s1 := { s with pty := { s.pty with master := master } }
  if master = -1 then (false, s1)
  else
    let s2 := { s1 with pty := { s1.pty with slave := slave } }
    if slave = -1 then (false, s2) else (true, s2)

/-- The results of the system calls and of the terminal and child routines of one run
of `main`. -/
structure MainEnv where
  isatty : Bool
  atexit : Int
  arguments : List Argument
  target : Bool
  handle_signals : Bool
  reconfigure_ctty : Bool
  pty_master : Int
  pty_slave : Int
  pid : Int
  execute_program : Bool
  multiplex : MultiplexEnv

/-- Function `main`, up to its `return` or `exit`: the exit status, the state then and the nodes
serviced by the relay loop. The handlers registered with `atexit` run afterwards. In the
child (`pid == 0`) the outcome of `execute_program` is an input. -/
def main (fuel : Nat) (env : MainEnv) : Option (Int × State × List Nat) :=
  if !env.isatty then some (EXIT_FAILURE, initial, [])
  else if env.atexit ≠ 0 then some (EXIT_FAILURE, initial, [])
  else
    match parse_command_line env.arguments env.target initial with
    | (.exited status, s1) => some (status, s1, [])
    | (.returned false, s1) => some (EXIT_FAILURE, s1, [])
    | (.returned true, s1) =>
      if !env.handle_signals then some (EXIT_FAILURE, s1, [])
      else if !env.reconfigure_ctty then some (EXIT_FAILURE, s1, [])
      else
        match open_pty env.pty_master env.pty_slave s1 with
        | (false, s2) => some (EXIT_FAILURE, s2, [])
        | (true, s2) =>
          if env.pid = -1 then some (EXIT_FAILURE, s2, [])
          else if env.pid = 0 then
            if !env.execute_program then some (EXIT_FAILURE, s2, [])
            else some (EXIT_SUCCESS, s2, [])
          else
            match multiplex fuel env.multiplex s2 with
            | none => none
            | some (false, s3, serviced) => some (EXIT_FAILURE, s3, serviced)
            | some (true, s3, serviced) => some (EXIT_SUCCESS, s3, serviced)

/-! ## Sequences of admissions and removals -/

/-- One registry operation: `add_input(descriptor)` with the cell `calloc` returns, or
`remove_input(input)` with the `fcntl` results it may use. -/
inductive Op where
  | add (cell : Pointer) (descriptor : Int)
  | remove (fcntl : Fcntl) (input : Nat)
deriving DecidableEq, Repr

/-- Apply one operation. `add_input` applies the macros of `fd_set` to its descriptor
once `calloc` has succeeded, and `remove_input` applies them to the descriptor of its
input; where they are not defined the operation has no defined result (`none`), as has
a `remove_input` whose scan runs out of fuel. -/
def step (fuel : Nat) : Op → State → Option State
  | .add none descriptor, s => some (add_input none descriptor s).2
  | .add (some input) descriptor, s =>
    if fd_defined descriptor then some (add_input (some input) descriptor s).2 else none
  | .remove fcntl input, s =>
    if fd_defined (s.memory input).descriptor then remove_input fuel fcntl input s else none

/-- Apply the operations in order. -/
def run (fuel : Nat) : List Op → State → Option State
  | [], s => some s
  | op :: ops, s =>
    match step fuel op s with
    | none => none
    | some s1 => run fuel ops s1

/-- The nodes in the list after `op`, when they were `l` before. -/
def nodes_after (l : List Nat) : Op → List Nat
  | .add (some a) _ => l ++ [a]
  | .add none _ => l
  | .remove _ a => l.erase a

/-- The operations can be applied in this order to a registry holding the nodes `l`:
`calloc` returns a cell that is not in use, descriptors are non-negative and below
`FD_SETSIZE`, and only nodes of the list are removed. -/
def Admissible : List Nat → List Op → Prop
  | _, [] => True
  | l, .add cell descriptor :: ops =>
    (∀ a, cell = some a → a ∉ l) ∧ (0 ≤ descriptor ∧ descriptor < FD_SETSIZE) ∧
      Admissible (nodes_after l (.add cell descriptor)) ops
  | l, .remove fcntl input :: ops =>
    input ∈ l ∧ Admissible (nodes_after l (.remove fcntl input)) ops

/-- The descriptors held by the nodes `l`, in order. -/
def descriptors_of (s : State) (l : List Nat) : List Int :=
  l.map (fun a => (s.memory a).descriptor)

/-- The cell of the input an option admits. -/
def Argument.cell : Argument → Option Nat
  | .f _ cell => cell
  | .p _ _ _ cell => cell
  | _ => none

/-- The descriptor of the input an option admits. -/
def Argument.descriptor : Argument → Option Int
  | .f descriptor _ => some descriptor
  | .p _ _ descriptor _ => some descriptor
  | _ => none

/-- The three ways `service` returns failure on an input holding `descriptor`: `read`
fails; `read` returns zero on standard input; or, after a `read` of at least one byte,
a `write` fails before all bytes are taken. -/
def ServiceFails (ev : ServiceEv) (descriptor : Int) : Prop :=
  ev.pending = -1 ∨
    (ev.pending = 0 ∧ descriptor = STDIN_FILENO) ∨
    (ev.pending ≠ -1 ∧ ev.pending ≠ 0 ∧
      ∃ delivered, write_loop ev.buffer ev.written ev.pending = some (false, delivered))

/-- The inner loop of `multiplex`, started at `p` in state `s`, comes after `k` inputs
to input `a` in state `t`: each input on the way was either not ready and passed over,
or ready and serviced with success (`done` lists those, in order). -/
inductive ScanReaches (fuel : Nat) (active : fd_set) (calls : Nat → ServiceEv) :
    Nat → Pointer → State → List Nat → Nat → State → Prop where
  | here (a : Nat) (s : State) : ScanReaches fuel active calls 0 (some a) s [] a s
  | skip (k b : Nat) (s : State) (done : List Nat) (a : Nat) (t : State)
      (hidle : FD_ISSET (s.memory b).descriptor active = false)
      (hrest : ScanReaches fuel active calls k (s.memory b).next s done a t) :
      ScanReaches fuel active calls (k + 1) (some b) s done a t
  | serviced (k b : Nat) (s : State) (r : Serviced) (done : List Nat) (a : Nat) (t : State)
      (hready : FD_ISSET (s.memory b).descriptor active = true)
      (hservice : service fuel (calls b) b s.pty.master s = some r)
      (hok : r.ok = true)
      (hrest : ScanReaches fuel active calls k (s.memory b).next r.state done a t) :
      ScanReaches fuel active calls (k + 1) (some b) s (b :: done) a t

/-- A `ServiceEv` in which `read` returns one byte and the `write` of it fails. -/
def write_error : ServiceEv := ⟨1, [120], [-1], ⟨0, 0⟩⟩

/-! ## Concrete runs -/

/-- A `ServiceEv` in which `read` returns one byte and one `write` takes it. -/
def one_byte : ServiceEv := ⟨1, [120], [1], ⟨0, 0⟩⟩

/-- A `ServiceEv` in which `read` fails. -/
def read_error : ServiceEv := ⟨-1, [], [], ⟨0, 0⟩⟩

/-- A run of `main` without `-f` or `-p`, pty master 3, in which the first `select`
reports standard input ready and `read` on it then fails. -/
def session_with_read_error : MainEnv :=
  { isatty := true, atexit := 0, arguments := [], target := true, handle_signals := true,
    reconfigure_ctty := true, pty_master := 3, pty_slave := 4, pid := 100,
    execute_program := false,
    multiplex :=
      { stdin_fcntl := ⟨0, 0⟩, stdin_cell := some 1, master_cell := some 2,
        events := [⟨1, 0, fun d => decide (d = 0), false, fun _ => read_error⟩] } }

/-- The registry `{stdin, pty master}` (cells 1 and 2, pty master 3) with the relay loop
running. -/
def relaying : State :=
  { (add_input (some 2) 3 (add_input (some 1) STDIN_FILENO (open_pty 3 4 initial).2).2).2 with
    multiplexing := true }

/-! ## The list a registry represents -/

/-- First address of `l`, or `stop` when `l` is empty. -/
def headOr (l : List Nat) (stop : Pointer) : Pointer :=
  match l with
  | [] => stop
  | a :: _ => some a

/-- Last address of `l`, or `start` when `l` is empty. -/
def lastOr (l : List Nat) (start : Pointer) : Pointer :=
  match l.getLast? with
  | none => start
  | some a => some a

/-- The `next` fields chain the nodes of `l` in order, the last one pointing to `stop`. -/
def NextChain (m : Nat → iix_input) (stop : Pointer) : List Nat → Prop
  | [] => True
  | a :: rest => (m a).next = headOr rest stop ∧ NextChain m stop rest

/-- The `previous` fields chain the nodes of `l` backwards, the first one pointing
to `start`. -/
def PrevChain (m : Nat → iix_input) : Pointer → List Nat → Prop
  | _, [] => True
  | start, a :: rest => (m a).previous = start ∧ PrevChain m (some a) rest

/-- The registry holds exactly the nodes `l`, in this order: the addresses are distinct,
`head` and `tail` are the ends of `l`, and the `next` and `previous` fields link
neighbours, with `NULL` at both ends. -/
def Linked (s : State) (l : List Nat) : Prop :=
  l.Nodup ∧ s.inputs.head = l.head? ∧ s.inputs.tail = l.getLast? ∧
    NextChain s.memory none l ∧ PrevChain s.memory none l

/-- Decide `NextChain` by checking every link. -/
def NextChain.decide (m : Nat → iix_input) (stop : Pointer) :
    (l : List Nat) → Decidable (NextChain m stop l)
  | [] => isTrue trivial
  | a :: rest =>
    match NextChain.decide m stop rest with
    | isTrue h =>
      if e : (m a).next = headOr rest stop then isTrue ⟨e, h⟩
      else isFalse (fun c => e c.1)
    | isFalse h => isFalse (fun c => h c.2)

/-- Decide `PrevChain` by checking every link. -/
def PrevChain.decide (m : Nat → iix_input) :
    (start : Pointer) → (l : List Nat) → Decidable (PrevChain m start l)
  | _, [] => isTrue trivial
  | start, a :: rest =>
    match PrevChain.decide m (some a) rest with
    | isTrue h =>
      if e : (m a).previous = start then isTrue ⟨e, h⟩
      else isFalse (fun c => e c.1)
    | isFalse h => isFalse (fun c => h c.2)

instance (m : Nat → iix_input) (stop : Pointer) (l : List Nat) :
    Decidable (NextChain m stop l) := NextChain.decide m stop l

instance (m : Nat → iix_input) (start : Pointer) (l : List Nat) :
    Decidable (PrevChain m start l) := PrevChain.decide m start l

instance (s : State) (l : List Nat) : Decidable (Linked s l) := by
  unfold Linked
  infer_instance

/-- Follow `next` from `p`, collecting the addresses visited. -/
def walk_next (m : Nat → iix_input) : Nat → Pointer → Option (List Nat)
  | _, none => some []
  | 0, some _ => none
  | fuel + 1, some a => (walk_next m fuel (m a).next).map (fun l => a :: l)

/-- Follow `previous` from `p`, collecting the addresses visited. -/
def walk_previous (m : Nat → iix_input) : Nat → Pointer → Option (List Nat)
  | _, none => some []
  | 0, some _ => none
  | fuel + 1, some a => (walk_previous m fuel (m a).previous).map (fun l => a :: l)

/-- The first two statements of `unlink_input`: the neighbours are joined. -/
def unlink_neighbours (input : Nat) (s : State) : State :=
  let s1 :=
    match (s.memory input).previous with
    | some previous => set_next previous (s.memory input).next s
    | none => s
  match (s1.memory input).next with
  | some next => set_previous next (s1.memory input).previous s1
  | none => s1

/-- The last two statements of `unlink_input`: `head` and `tail` are moved. -/
def unlink_ends (input : Nat) (s : State) : State :=
  let s3 :=
    if some input = s.inputs.head then
      { s with inputs := { s.inputs with head := (s.memory input).next } }
    else s
  if some input = s3.inputs.tail then
    { s3 with inputs := { s3.inputs with tail := (s3.memory input).previous } }
  else s3

/-- The registry after `link_input` on each node of `nodes`, in order. -/
def link_inputs (nodes : List Nat) (s : State) : State :=
  nodes.foldl (fun s a => link_input a s) s

/-- The registry after `unlink_input` on each node of `removed`, in order. -/
def unlink_inputs (removed : List Nat) (s : State) : State :=
  removed.foldl (fun s a => unlink_input a s) s

/-- State `s` with `inputs.highest_descriptor` replaced. -/
def with_highest (hd : Int) (s : State) : State :=
  { s with inputs := { s.inputs with highest_descriptor := hd } }

/-- Every node of `l` holds a descriptor on which the macros of `fd_set` are defined. -/
def InRange (s : State) (l : List Nat) : Prop :=
  ∀ a ∈ l, fd_defined (s.memory a).descriptor = true

/-- Every descriptor of the readiness set is at most `highest_descriptor`. -/
def Covered (s : State) : Prop :=
  ∀ d, FD_ISSET d s.inputs.descriptors = true → d ≤ s.inputs.highest_descriptor

/-! # Theorems

### Chains -/

theorem eq_nil_or_snoc (l : List Nat) : l = [] ∨ ∃ l1 t, l = l1 ++ [t] := by
  rcases List.eq_nil_or_concat l with h | ⟨l1, t, h⟩
  · exact Or.inl h
  · exact Or.inr ⟨l1, t, by rw [h, List.concat_eq_append]⟩

@[simp] theorem headOr_nil (q : Pointer) : headOr [] q = q := rfl

@[simp] theorem headOr_cons (a : Nat) (l : List Nat) (q : Pointer) :
    headOr (a :: l) q = some a := rfl

@[simp] theorem lastOr_nil (q : Pointer) : lastOr [] q = q := rfl

@[simp] theorem lastOr_concat (l : List Nat) (a : Nat) (q : Pointer) :
    lastOr (l ++ [a]) q = some a := by
  simp [lastOr]

theorem headOr_append (l1 l2 : List Nat) (q : Pointer) :
    headOr (l1 ++ l2) q = headOr l1 (headOr l2 q) := by
  cases l1 <;> simp

theorem headOr_eq_head? (l : List Nat) : headOr l none = l.head? := by
  cases l <;> simp

theorem lastOr_eq_getLast? (l : List Nat) : lastOr l none = l.getLast? := by
  unfold lastOr
  cases l.getLast? <;> rfl

theorem lastOr_cons (a : Nat) (l : List Nat) (q : Pointer) :
    lastOr (a :: l) q = lastOr l (some a) := by
  induction l using List.reverseRecOn with
  | nil => simp [lastOr]
  | append_singleton l b _ =>
    rw [← List.cons_append, lastOr_concat, lastOr_concat]

theorem lastOr_append (l1 l2 : List Nat) (q : Pointer) :
    lastOr (l1 ++ l2) q = lastOr l2 (lastOr l1 q) := by
  induction l1 generalizing q with
  | nil => simp
  | cons a l1 ih =>
    rw [List.cons_append, lastOr_cons, ih, lastOr_cons]

theorem NextChain_append (m : Nat → iix_input) (stop : Pointer) (l1 l2 : List Nat) :
    NextChain m stop (l1 ++ l2) ↔ NextChain m (headOr l2 stop) l1 ∧ NextChain m stop l2 := by
  induction l1 with
  | nil => simp [NextChain]
  | cons a l1 ih =>
    rw [List.cons_append]
    simp only [NextChain]
    rw [ih, headOr_append]
    tauto

theorem PrevChain_append (m : Nat → iix_input) (start : Pointer) (l1 l2 : List Nat) :
    PrevChain m start (l1 ++ l2) ↔ PrevChain m start l1 ∧ PrevChain m (lastOr l1 start) l2 := by
  induction l1 generalizing start with
  | nil => simp [PrevChain]
  | cons a l1 ih =>
    rw [List.cons_append]
    simp only [PrevChain]
    rw [ih, lastOr_cons]
    tauto

theorem NextChain_congr (m m2 : Nat → iix_input) (stop : Pointer) (l : List Nat)
    (h : ∀ a ∈ l, (m2 a).next = (m a).next) :
    NextChain m stop l → NextChain m2 stop l := by
  induction l with
  | nil => simp [NextChain]
  | cons a l ih =>
    intro hc
    refine ⟨by rw [h a (by simp)]; exact hc.1, ih (fun b hb => h b (by simp [hb])) hc.2⟩

theorem PrevChain_congr (m m2 : Nat → iix_input) (start : Pointer) (l : List Nat)
    (h : ∀ a ∈ l, (m2 a).previous = (m a).previous) :
    PrevChain m start l → PrevChain m2 start l := by
  induction l generalizing start with
  | nil => simp [PrevChain]
  | cons a l ih =>
    intro hc
    refine ⟨by rw [h a (by simp)]; exact hc.1, ih _ (fun b hb => h b (by simp [hb])) hc.2⟩

/-! ### `link_input` and `unlink_input` on a linked registry -/

theorem link_input_linked (s : State) (l : List Nat) (a : Nat) (h : Linked s l)
    (ha : a ∉ l) (hp : (s.memory a).previous = none) (hn : (s.memory a).next = none) :
    Linked (link_input a s) (l ++ [a]) := by
  obtain ⟨hnd, hh, ht, hnx, hpv⟩ := h
  rcases eq_nil_or_snoc l with rfl | ⟨l1, t, rfl⟩
  · simp only [List.head?_nil, List.getLast?_nil] at hh ht
    simp [link_input, Linked, hh, ht, NextChain, PrevChain, hp, hn]
  · have hta : t ≠ a := by
      rintro rfl
      exact ha (by simp)
    have hl1a : ∀ x ∈ l1, x ≠ a := by
      rintro x hx rfl
      exact ha (by simp [hx])
    have hl1t : ∀ x ∈ l1, x ≠ t := by
      rintro x hx rfl
      have := List.nodup_append.1 hnd
      exact (List.disjoint_left.1 this.2.2 hx) (by simp)
    have hhead : s.inputs.head ≠ none := by
      rw [hh]
      cases l1 <;> simp
    have htail : s.inputs.tail = some t := by
      rw [ht]
      simp
    rw [NextChain_append] at hnx
    rw [PrevChain_append] at hpv
    simp only [NextChain, PrevChain, headOr_cons, headOr_nil, and_true] at hnx hpv
    have hmem : (link_input a s).memory = fun x =>
        if x = a then { s.memory a with previous := some t }
        else if x = t then { s.memory t with next := some a } else s.memory x := by
      funext x
      simp only [link_input, hhead, if_false, htail, set_next, set_previous, store]
      by_cases hxa : x = a
      · subst hxa
        simp [Ne.symm hta]
      · simp [hxa]
    refine ⟨?_, ?_, ?_, ?_, ?_⟩
    · rw [List.nodup_append]
      refine ⟨hnd, by simp, ?_⟩
      simpa using ha
    · simp only [link_input, hhead, if_false, htail, set_next, set_previous, store]
      rw [hh]
      cases l1 <;> simp
    · simp only [link_input, hhead, if_false, htail, set_next, set_previous, store]
      simp
    · rw [NextChain_append, NextChain_append]
      simp only [NextChain, headOr_cons, headOr_nil, and_true, hmem]
      refine ⟨⟨?_, ?_⟩, ?_⟩
      · refine NextChain_congr s.memory _ _ _ ?_ hnx.1
        intro x hx
        simp [hl1a x hx, hl1t x hx]
      · simp [hta]
      · simp [hn]
    · rw [PrevChain_append, PrevChain_append]
      simp only [PrevChain, lastOr_concat, and_true, hmem]
      refine ⟨⟨?_, ?_⟩, ?_⟩
      · refine PrevChain_congr s.memory _ _ _ ?_ hpv.1
        intro x hx
        simp [hl1a x hx, hl1t x hx]
      · simpa [hta] using hpv.2
      · simp

theorem head?_middle (l1 l2 : List Nat) (a : Nat) :
    (l1 ++ a :: l2).head? = headOr l1 (some a) := by
  cases l1 <;> simp

theorem getLast?_middle (l1 l2 : List Nat) (a : Nat) :
    (l1 ++ a :: l2).getLast? = lastOr l2 (some a) := by
  rw [← lastOr_eq_getLast?, lastOr_append, lastOr_cons]

theorem headOr_eq_some_self (l : List Nat) (a : Nat) (q : Pointer) (ha : a ∉ l) :
    some a = headOr l q ↔ l = [] ∧ q = some a := by
  cases l with
  | nil => simp [eq_comm]
  | cons b l =>
    simp only [List.mem_cons, not_or] at ha
    simp [ha.1]

theorem lastOr_eq_some_self (l : List Nat) (a : Nat) (q : Pointer) (ha : a ∉ l) :
    some a = lastOr l q ↔ l = [] ∧ q = some a := by
  rcases eq_nil_or_snoc l with rfl | ⟨l1, t, rfl⟩
  · simp [eq_comm]
  · simp only [List.mem_append, List.mem_singleton, not_or] at ha
    simp [ha.2]

theorem unlink_input_eq (a : Nat) (s : State) :
    unlink_input a s = unlink_ends a (unlink_neighbours a s) := rfl

theorem unlink_ends_memory (a : Nat) (s : State) : (unlink_ends a s).memory = s.memory := by
  simp only [unlink_ends]
  split_ifs <;> rfl

theorem unlink_neighbours_inputs (a : Nat) (s : State) :
    (unlink_neighbours a s).inputs = s.inputs := by
  unfold unlink_neighbours
  cases (s.memory a).previous <;> simp only [set_next, store] <;>
    split <;> rfl

@[simp] theorem set_next_next (p : Nat) (q : Pointer) (s : State) (x : Nat) :
    ((set_next p q s).memory x).next = if x = p then q else (s.memory x).next := by
  simp only [set_next, store]
  split_ifs <;> rfl

@[simp] theorem set_next_previous (p : Nat) (q : Pointer) (s : State) (x : Nat) :
    ((set_next p q s).memory x).previous = (s.memory x).previous := by
  simp only [set_next, store]
  split_ifs with h
  · rw [h]
  · rfl

@[simp] theorem set_next_descriptor (p : Nat) (q : Pointer) (s : State) (x : Nat) :
    ((set_next p q s).memory x).descriptor = (s.memory x).descriptor := by
  simp only [set_next, store]
  split_ifs with h
  · rw [h]
  · rfl

@[simp] theorem set_previous_previous (p : Nat) (q : Pointer) (s : State) (x : Nat) :
    ((set_previous p q s).memory x).previous = if x = p then q else (s.memory x).previous := by
  simp only [set_previous, store]
  split_ifs <;> rfl

@[simp] theorem set_previous_next (p : Nat) (q : Pointer) (s : State) (x : Nat) :
    ((set_previous p q s).memory x).next = (s.memory x).next := by
  simp only [set_previous, store]
  split_ifs with h
  · rw [h]
  · rfl

@[simp] theorem set_previous_descriptor (p : Nat) (q : Pointer) (s : State) (x : Nat) :
    ((set_previous p q s).memory x).descriptor = (s.memory x).descriptor := by
  simp only [set_previous, store]
  split_ifs with h
  · rw [h]
  · rfl

theorem unlink_neighbours_next (s : State) (a x : Nat) :
    ((unlink_neighbours a s).memory x).next =
      if (s.memory a).previous = some x then (s.memory a).next else (s.memory x).next := by
  unfold unlink_neighbours
  cases hP : (s.memory a).previous with
  | none =>
    simp only []
    split <;> simp
  | some p =>
    simp only []
    split <;> simp [eq_comm]

theorem unlink_neighbours_previous (s : State) (a x : Nat)
    (hP : (s.memory a).previous ≠ some a) :
    ((unlink_neighbours a s).memory x).previous =
      if (s.memory a).next = some x then (s.memory a).previous else (s.memory x).previous := by
  unfold unlink_neighbours
  cases hPe : (s.memory a).previous with
  | none =>
    simp only []
    cases hN : (s.memory a).next <;> simp [hPe, eq_comm]
  | some p =>
    have hap : a ≠ p := by
      rintro rfl
      exact hP hPe
    have h1 : ((set_next p (s.memory a).next s).memory a).next = (s.memory a).next := by
      simp
    simp only [h1]
    cases hN : (s.memory a).next <;> simp [hPe, eq_comm]

theorem unlink_neighbours_descriptor (s : State) (a x : Nat) :
    ((unlink_neighbours a s).memory x).descriptor = (s.memory x).descriptor := by
  unfold unlink_neighbours
  cases (s.memory a).previous <;> simp only [] <;> split <;> simp

theorem unlink_input_memory_next (s : State) (a x : Nat) :
    ((unlink_input a s).memory x).next =
      if (s.memory a).previous = some x then (s.memory a).next else (s.memory x).next := by
  rw [unlink_input_eq, unlink_ends_memory, unlink_neighbours_next]

theorem unlink_input_memory_previous (s : State) (a x : Nat)
    (hP : (s.memory a).previous ≠ some a) :
    ((unlink_input a s).memory x).previous =
      if (s.memory a).next = some x then (s.memory a).previous else (s.memory x).previous := by
  rw [unlink_input_eq, unlink_ends_memory, unlink_neighbours_previous s a x hP]

theorem unlink_input_memory_descriptor (s : State) (a x : Nat) :
    ((unlink_input a s).memory x).descriptor = (s.memory x).descriptor := by
  rw [unlink_input_eq, unlink_ends_memory, unlink_neighbours_descriptor]

theorem unlink_input_head (s : State) (a : Nat) (hP : (s.memory a).previous ≠ some a) :
    (unlink_input a s).inputs.head =
      if some a = s.inputs.head then (s.memory a).next else s.inputs.head := by
  have h1 := unlink_neighbours_next s a a
  rw [if_neg hP] at h1
  rw [unlink_input_eq]
  have hi := unlink_neighbours_inputs a s
  generalize unlink_neighbours a s = t at h1 hi
  simp only [unlink_ends, hi, h1]
  split_ifs <;> simp [hi]

theorem unlink_input_tail (s : State) (a : Nat) (hP : (s.memory a).previous ≠ some a)
    (hN : (s.memory a).next ≠ some a) :
    (unlink_input a s).inputs.tail =
      if some a = s.inputs.tail then (s.memory a).previous else s.inputs.tail := by
  have h1 := unlink_neighbours_previous s a a hP
  rw [if_neg hN] at h1
  rw [unlink_input_eq]
  have hi := unlink_neighbours_inputs a s
  generalize unlink_neighbours a s = t at h1 hi
  simp only [unlink_ends, hi, h1]
  split_ifs <;> simp_all

theorem unlink_input_frame (s : State) (a : Nat) :
    (unlink_input a s).inputs.descriptors = s.inputs.descriptors ∧
      (unlink_input a s).inputs.highest_descriptor = s.inputs.highest_descriptor ∧
      (unlink_input a s).pty = s.pty ∧
      (unlink_input a s).multiplexing = s.multiplexing ∧
      (unlink_input a s).diagnostics = s.diagnostics := by
  have h : ∀ t : State, (unlink_ends a t).inputs.descriptors = t.inputs.descriptors ∧
      (unlink_ends a t).inputs.highest_descriptor = t.inputs.highest_descriptor ∧
      (unlink_ends a t).pty = t.pty ∧ (unlink_ends a t).multiplexing = t.multiplexing ∧
      (unlink_ends a t).diagnostics = t.diagnostics := by
    intro t
    simp only [unlink_ends]
    split_ifs <;> simp
  have h2 : (unlink_neighbours a s).pty = s.pty ∧
      (unlink_neighbours a s).multiplexing = s.multiplexing ∧
      (unlink_neighbours a s).diagnostics = s.diagnostics := by
    unfold unlink_neighbours
    cases (s.memory a).previous <;> simp only [] <;>
      split <;> simp [set_next, set_previous, store]
  rw [unlink_input_eq]
  obtain ⟨e1, e2, e3, e4, e5⟩ := h (unlink_neighbours a s)
  rw [e1, e2, e3, e4, e5, unlink_neighbours_inputs]
  exact ⟨rfl, rfl, h2⟩

theorem mem_of_headOr (l : List Nat) (x : Nat) (h : headOr l none = some x) : x ∈ l := by
  cases l with
  | nil => simp at h
  | cons b l =>
    simp only [headOr_cons, Option.some.injEq] at h
    simp [h]

theorem mem_of_lastOr (l : List Nat) (x : Nat) (h : lastOr l none = some x) : x ∈ l := by
  rcases eq_nil_or_snoc l with rfl | ⟨k, t, rfl⟩
  · simp at h
  · simp only [lastOr_concat, Option.some.injEq] at h
    simp [h]

theorem unlink_input_linked (s : State) (l1 l2 : List Nat) (a : Nat)
    (h : Linked s (l1 ++ a :: l2)) : Linked (unlink_input a s) (l1 ++ l2) := by
  obtain ⟨hnd, hh, ht, hnx, hpv⟩ := h
  rw [head?_middle] at hh
  rw [getLast?_middle] at ht
  rw [NextChain_append] at hnx
  rw [PrevChain_append] at hpv
  simp only [NextChain, PrevChain, headOr_cons] at hnx hpv
  obtain ⟨hnx1, hnxa, hnx2⟩ := hnx
  obtain ⟨hpv1, hpva, hpv2⟩ := hpv
  have hnd1 : l1.Nodup := (List.nodup_append.1 hnd).1
  have hnd2 : (a :: l2).Nodup := (List.nodup_append.1 hnd).2.1
  have hdis : ∀ x ∈ l1, x ∉ a :: l2 :=
    fun x hx => List.disjoint_left.1 (List.nodup_append.1 hnd).2.2 hx
  have ha1 : a ∉ l1 := fun hx => hdis a hx (by simp)
  have ha2 : a ∉ l2 := (List.nodup_cons.1 hnd2).1
  have hnd2t : l2.Nodup := (List.nodup_cons.1 hnd2).2
  have hdis2 : ∀ x ∈ l1, x ∉ l2 := fun x hx hx2 => hdis x hx (by simp [hx2])
  have hP : (s.memory a).previous ≠ some a := by
    rw [hpva]
    intro hc
    exact ha1 (mem_of_lastOr _ _ hc)
  have hN : (s.memory a).next ≠ some a := by
    rw [hnxa]
    intro hc
    exact ha2 (mem_of_headOr _ _ hc)
  refine ⟨?_, ?_, ?_, ?_, ?_⟩
  · rw [List.nodup_append]
    exact ⟨hnd1, hnd2t, List.disjoint_left.2 hdis2⟩
  · rw [unlink_input_head s a hP, hh, hnxa, ← headOr_eq_head?, headOr_append]
    cases l1 with
    | nil => simp
    | cons b k =>
      have hab : a ≠ b := by
        rintro rfl
        exact ha1 (by simp)
      simp [hab]
  · rw [unlink_input_tail s a hP hN, ht, hpva, ← lastOr_eq_getLast?, lastOr_append]
    rcases eq_nil_or_snoc l2 with rfl | ⟨k, t, rfl⟩
    · simp
    · have hat : a ≠ t := by
        rintro rfl
        exact ha2 (by simp)
      simp [hat]
  · rw [NextChain_append]
    constructor
    · rcases eq_nil_or_snoc l1 with rfl | ⟨k1, p, rfl⟩
      · trivial
      · rw [NextChain_append] at hnx1 ⊢
        simp only [NextChain, headOr_cons, headOr_nil, and_true] at hnx1 ⊢
        simp only [lastOr_concat] at hpva
        constructor
        · refine NextChain_congr s.memory _ _ _ ?_ hnx1.1
          intro x hx
          have hxp : p ≠ x := by
            rintro rfl
            exact (List.disjoint_left.1 (List.nodup_append.1 hnd1).2.2 hx) (by simp)
          rw [unlink_input_memory_next, hpva]
          simp [hxp]
        · rw [unlink_input_memory_next, hpva, hnxa]
          simp
    · refine NextChain_congr s.memory _ _ _ ?_ hnx2
      intro x hx
      rw [unlink_input_memory_next, hpva, if_neg]
      intro hc
      exact hdis2 x (mem_of_lastOr _ _ hc) hx
  · rw [PrevChain_append]
    constructor
    · refine PrevChain_congr s.memory _ _ _ ?_ hpv1
      intro x hx
      rw [unlink_input_memory_previous s a x hP, hnxa, if_neg]
      intro hc
      exact hdis2 x hx (mem_of_headOr _ _ hc)
    · cases l2 with
      | nil => trivial
      | cons n k2 =>
        simp only [PrevChain, headOr_cons] at hpv2 hnxa ⊢
        constructor
        · rw [unlink_input_memory_previous s a n hP, hnxa, hpva]
          simp
        · refine PrevChain_congr s.memory _ _ _ ?_ hpv2.2
          intro x hx
          have hxn : n ≠ x := by
            rintro rfl
            exact (List.nodup_cons.1 hnd2t).1 hx
          rw [unlink_input_memory_previous s a x hP, hnxa]
          simp [hxn]

theorem unlink_input_linked_erase (s : State) (l : List Nat) (a : Nat)
    (h : Linked s l) (ha : a ∈ l) : Linked (unlink_input a s) (l.erase a) := by
  obtain ⟨l1, l2, rfl⟩ := List.append_of_mem ha
  have hnd := h.1
  have ha1 : a ∉ l1 := by
    intro hx
    exact (List.disjoint_left.1 (List.nodup_append.1 hnd).2.2 hx) (by simp)
  rw [List.erase_append_right _ ha1, List.erase_cons_head]
  exact unlink_input_linked s l1 l2 a h

/-! ### Traversals of a linked registry -/

theorem walk_next_chain (m : Nat → iix_input) (l : List Nat) (fuel : Nat)
    (h : NextChain m none l) (hfuel : l.length ≤ fuel) :
    walk_next m fuel (headOr l none) = some l := by
  induction l generalizing fuel with
  | nil => cases fuel <;> rfl
  | cons a l ih =>
    cases fuel with
    | zero => simp at hfuel
    | succ fuel =>
      simp only [List.length_cons, Nat.add_le_add_iff_right] at hfuel
      simp only [headOr_cons, walk_next, h.1, ih fuel h.2 hfuel, Option.map_some']

theorem walk_previous_chain (m : Nat → iix_input) (l : List Nat) (fuel : Nat)
    (h : PrevChain m none l) (hfuel : l.length ≤ fuel) :
    walk_previous m fuel (lastOr l none) = some l.reverse := by
  induction l using List.reverseRecOn generalizing fuel with
  | nil => cases fuel <;> rfl
  | append_singleton l t ih =>
    rw [PrevChain_append] at h
    simp only [PrevChain, and_true] at h
    cases fuel with
    | zero => simp at hfuel
    | succ fuel =>
      simp only [List.length_append, List.length_singleton, Nat.add_le_add_iff_right] at hfuel
      simp only [lastOr_concat, walk_previous, h.2, ih fuel h.1 hfuel, Option.map_some',
        List.reverse_append, List.reverse_singleton, List.singleton_append]

theorem Linked.walk_next_eq (s : State) (l : List Nat) (fuel : Nat) (h : Linked s l)
    (hfuel : l.length ≤ fuel) : walk_next s.memory fuel s.inputs.head = some l := by
  rw [h.2.1, ← headOr_eq_head?]
  exact walk_next_chain _ _ _ h.2.2.2.1 hfuel

theorem Linked.walk_previous_eq (s : State) (l : List Nat) (fuel : Nat) (h : Linked s l)
    (hfuel : l.length ≤ fuel) :
    walk_previous s.memory fuel s.inputs.tail = some l.reverse := by
  rw [h.2.2.1, ← lastOr_eq_getLast?]
  exact walk_previous_chain _ _ _ h.2.2.2.2 hfuel

theorem Linked.head_previous (s : State) (l : List Nat) (h : Linked s l) (a : Nat)
    (ha : s.inputs.head = some a) : (s.memory a).previous = none := by
  obtain ⟨_, hh, _, _, hpv⟩ := h
  cases l with
  | nil => simp [ha] at hh
  | cons b l =>
    simp only [ha, List.head?_cons, Option.some.injEq] at hh
    subst hh
    exact hpv.1

theorem Linked.tail_next (s : State) (l : List Nat) (h : Linked s l) (a : Nat)
    (ha : s.inputs.tail = some a) : (s.memory a).next = none := by
  obtain ⟨_, _, ht, hnx, _⟩ := h
  rcases eq_nil_or_snoc l with rfl | ⟨k, t, rfl⟩
  · simp [ha] at ht
  · rw [← lastOr_eq_getLast?, lastOr_concat, ha] at ht
    simp only [Option.some.injEq] at ht
    subst ht
    rw [NextChain_append] at hnx
    exact hnx.2.1

theorem link_input_memory_other (s : State) (a x : Nat) (hx : x ≠ a)
    (ht : s.inputs.tail ≠ some x) : (link_input a s).memory x = s.memory x := by
  cases htl : s.inputs.tail with
  | none => by_cases hh : s.inputs.head = none <;> simp [link_input, hh, htl]
  | some t =>
    have hxt : x ≠ t := by
      rintro rfl
      exact ht htl
    by_cases hh : s.inputs.head = none <;>
      simp [link_input, hh, htl, set_next, set_previous, store, hx, hxt]

theorem link_inputs_linked (nodes : List Nat) (s : State) (l : List Nat) (h : Linked s l)
    (hfresh : ∀ a ∈ nodes, a ∉ l ∧ (s.memory a).previous = none ∧ (s.memory a).next = none)
    (hnd : nodes.Nodup) : Linked (link_inputs nodes s) (l ++ nodes) := by
  induction nodes generalizing s l with
  | nil => simpa [link_inputs] using h
  | cons a nodes ih =>
    have ha := hfresh a (by simp)
    have h1 := link_input_linked s l a h ha.1 ha.2.1 ha.2.2
    have hrest : ∀ b ∈ nodes, b ∉ l ++ [a] ∧ ((link_input a s).memory b).previous = none ∧
        ((link_input a s).memory b).next = none := by
      intro b hb
      have hb2 := hfresh b (by simp [hb])
      have hba : b ≠ a := by
        rintro rfl
        exact (List.nodup_cons.1 hnd).1 hb
      have hbt : s.inputs.tail ≠ some b := by
        rw [h.2.2.1]
        intro hc
        exact hb2.1 (List.mem_of_mem_getLast? hc)
      rw [link_input_memory_other s a b hba hbt]
      exact ⟨by simp [hb2.1, hba], hb2.2⟩
    have := ih (link_input a s) (l ++ [a]) h1 hrest (List.nodup_cons.1 hnd).2
    simpa [link_inputs] using this

theorem unlink_inputs_linked (removed : List Nat) (s : State) (l : List Nat) (h : Linked s l)
    (hsub : removed ⊆ l) (hnd : removed.Nodup) :
    Linked (unlink_inputs removed s) (l.diff removed) := by
  induction removed generalizing s l with
  | nil => simpa [unlink_inputs] using h
  | cons a removed ih =>
    have ha : a ∈ l := hsub (by simp)
    have h1 := unlink_input_linked_erase s l a h ha
    have hsub2 : removed ⊆ l.erase a := by
      intro b hb
      have hba : b ≠ a := by
        rintro rfl
        exact (List.nodup_cons.1 hnd).1 hb
      exact (List.mem_erase_of_ne hba).2 (hsub (by simp [hb]))
    have := ih (unlink_input a s) (l.erase a) h1 hsub2 (List.nodup_cons.1 hnd).2
    simpa [unlink_inputs, List.diff_cons] using this

/-! ### Admission and removal on a linked registry -/

theorem Linked.congr (s t : State) (l : List Nat) (h : Linked s l)
    (hm : t.memory = s.memory) (hh : t.inputs.head = s.inputs.head)
    (ht : t.inputs.tail = s.inputs.tail) : Linked t l := by
  unfold Linked at h ⊢
  rw [hm, hh, ht]
  exact h

theorem Linked.store (s : State) (l : List Nat) (a : Nat) (node : iix_input)
    (h : Linked s l) (ha : a ∉ l) : Linked (store a node s) l := by
  obtain ⟨hnd, hh, ht, hnx, hpv⟩ := h
  have hm : ∀ x ∈ l, (Iix.store a node s).memory x = s.memory x := by
    intro x hx
    have hxa : x ≠ a := by
      rintro rfl
      exact ha hx
    simp [Iix.store, hxa]
  refine ⟨hnd, hh, ht, ?_, ?_⟩
  · exact NextChain_congr s.memory _ _ _ (fun x hx => by rw [hm x hx]) hnx
  · exact PrevChain_congr s.memory _ _ _ (fun x hx => by rw [hm x hx]) hpv

theorem link_input_descriptor (s : State) (a x : Nat) :
    ((link_input a s).memory x).descriptor = (s.memory x).descriptor := by
  cases htl : s.inputs.tail with
  | none => by_cases hh : s.inputs.head = none <;> simp [link_input, hh, htl]
  | some t => by_cases hh : s.inputs.head = none <;> simp [link_input, hh, htl]

theorem link_input_frame (s : State) (a : Nat) :
    (link_input a s).inputs.descriptors = s.inputs.descriptors ∧
      (link_input a s).inputs.highest_descriptor = s.inputs.highest_descriptor ∧
      (link_input a s).pty = s.pty ∧
      (link_input a s).multiplexing = s.multiplexing ∧
      (link_input a s).diagnostics = s.diagnostics := by
  cases htl : s.inputs.tail with
  | none => by_cases hh : s.inputs.head = none <;> simp [link_input, hh, htl]
  | some t =>
    by_cases hh : s.inputs.head = none <;>
      simp [link_input, hh, htl, set_next, set_previous, Iix.store]

theorem track_descriptor_spec (d : Int) (s : State) :
    (track_descriptor d s).memory = s.memory ∧
      (track_descriptor d s).inputs.head = s.inputs.head ∧
      (track_descriptor d s).inputs.tail = s.inputs.tail ∧
      (track_descriptor d s).inputs.descriptors = FD_SET d s.inputs.descriptors ∧
      (track_descriptor d s).inputs.highest_descriptor = max s.inputs.highest_descriptor d ∧
      (track_descriptor d s).pty = s.pty ∧
      (track_descriptor d s).multiplexing = s.multiplexing ∧
      (track_descriptor d s).diagnostics = s.diagnostics := by
  have hset : s.inputs.descriptors d = true → FD_SET d s.inputs.descriptors = s.inputs.descriptors := by
    intro h
    funext x
    by_cases hx : x = d
    · simp [FD_SET, hx, h]
    · simp [FD_SET, hx]
  by_cases h1 : s.inputs.descriptors d = true <;>
    by_cases h2 : s.inputs.highest_descriptor < d
  · simp [track_descriptor, FD_ISSET, h1, h2, hset h1, max_eq_right (le_of_lt h2)]
  · simp [track_descriptor, FD_ISSET, h1, h2, hset h1, max_eq_left (not_lt.1 h2)]
  · simp [track_descriptor, FD_ISSET, h1, h2, max_eq_right (le_of_lt h2)]
  · simp [track_descriptor, FD_ISSET, h1, h2, max_eq_left (not_lt.1 h2)]

/-- What `add_input` does to a linked registry when `calloc` returns a cell not in use. -/
theorem add_input_linked (s : State) (l : List Nat) (a : Nat) (d : Int) (h : Linked s l)
    (ha : a ∉ l) :
    (add_input (some a) d s).1 = true ∧
      Linked (add_input (some a) d s).2 (l ++ [a]) ∧
      descriptors_of (add_input (some a) d s).2 (l ++ [a]) = descriptors_of s l ++ [d] ∧
      (add_input (some a) d s).2.inputs.descriptors = FD_SET d s.inputs.descriptors ∧
      (add_input (some a) d s).2.inputs.highest_descriptor =
        max s.inputs.highest_descriptor d ∧
      (add_input (some a) d s).2.pty = s.pty ∧
      (add_input (some a) d s).2.multiplexing = s.multiplexing := by
  have heq : add_input (some a) d s =
      (true, track_descriptor d (link_input a (Iix.store a ⟨d, none, none⟩ (Iix.store a zeroed s)))) := by
    simp [add_input, allocate_input, Iix.store, zeroed]
  rw [heq]
  have hs2 : Linked (Iix.store a ⟨d, none, none⟩ (Iix.store a zeroed s)) l :=
    Linked.store _ l a _ (Linked.store s l a _ h ha) ha
  have hl := link_input_linked _ l a hs2 ha (by simp [Iix.store]) (by simp [Iix.store])
  obtain ⟨t1, t2, t3, t4, t5, t6, t7, _⟩ :=
    track_descriptor_spec d (link_input a (Iix.store a ⟨d, none, none⟩ (Iix.store a zeroed s)))
  obtain ⟨f1, f2, f3, f4, _⟩ := link_input_frame (Iix.store a ⟨d, none, none⟩ (Iix.store a zeroed s)) a
  refine ⟨rfl, Linked.congr _ _ _ hl t1 t2 t3, ?_, ?_, ?_, ?_, ?_⟩
  · simp only [descriptors_of, t1, link_input_descriptor, List.map_append, List.map_cons,
      List.map_nil]
    congr 1
    · apply List.map_congr_left
      intro x hx
      have hxa : x ≠ a := by
        rintro rfl
        exact ha hx
      simp [Iix.store, hxa]
    · simp [Iix.store]
  · rw [t4, f1]
    rfl
  · rw [t5, f2]
    rfl
  · rw [t6, f3]
    rfl
  · rw [t7, f4]
    rfl

theorem with_highest_self (s : State) : with_highest s.inputs.highest_descriptor s = s := rfl

/-- The loop of `find_highest_descriptor` ends on a linked registry, changes nothing but
`highest_descriptor`, never lowers it, and raises it only to a descriptor of the set. -/
theorem find_highest_loop_spec (l : List Nat) (fuel : Nat) (s : State)
    (h : PrevChain s.memory none l) (hfuel : l.length ≤ fuel) :
    ∃ hd, find_highest_loop fuel (lastOr l none) s = some (with_highest hd s) ∧
      s.inputs.highest_descriptor ≤ hd ∧
      (hd = s.inputs.highest_descriptor ∨ s.inputs.descriptors hd = true) := by
  induction l using List.reverseRecOn generalizing fuel s with
  | nil =>
    refine ⟨s.inputs.highest_descriptor, ?_, le_refl _, Or.inl rfl⟩
    cases fuel <;> rfl
  | append_singleton k t ih =>
    rw [PrevChain_append] at h
    simp only [PrevChain, and_true] at h
    cases fuel with
    | zero => simp at hfuel
    | succ fuel =>
      simp only [List.length_append, List.length_singleton, Nat.add_le_add_iff_right] at hfuel
      rw [lastOr_concat]
      by_cases hc : (s.memory t).descriptor > s.inputs.highest_descriptor ∧
          s.inputs.descriptors (s.memory t).descriptor = true
      · obtain ⟨hd, e, hle, hor⟩ := ih fuel (with_highest (s.memory t).descriptor s) h.1 hfuel
        refine ⟨hd, ?_, ?_, ?_⟩
        · simp only [find_highest_loop, FD_ISSET, hc.1, hc.2, if_true]
          have : (s.memory t).previous = lastOr k none := h.2
          simp only [with_highest] at e ⊢
          rw [this, e]
        · exact le_trans (le_of_lt hc.1) hle
        · rcases hor with hor | hor
          · right
            rw [hor]
            exact hc.2
          · right
            exact hor
      · obtain ⟨hd, e, hle, hor⟩ := ih fuel s h.1 hfuel
        refine ⟨hd, ?_, hle, hor⟩
        have hs1 : (if (s.memory t).descriptor > s.inputs.highest_descriptor then
            if FD_ISSET (s.memory t).descriptor s.inputs.descriptors = true then
              ({ s with inputs := { s.inputs with
                  highest_descriptor := (s.memory t).descriptor } } : State)
            else s
          else s) = s := by
          by_cases h1 : (s.memory t).descriptor > s.inputs.highest_descriptor
          · have h2 : ¬ s.inputs.descriptors (s.memory t).descriptor = true := fun h2 => hc ⟨h1, h2⟩
            simp [h1, FD_ISSET, h2]
          · simp [h1]
        simp only [find_highest_loop]
        rw [hs1, h.2, e]

theorem FD_CLR_of_not_set (d : Int) (set : fd_set) (h : set d = false) : FD_CLR d set = set := by
  funext x
  by_cases hx : x = d
  · simp [FD_CLR, hx, h]
  · simp [FD_CLR, hx]

/-- Function `untrack_descriptor` returns on a linked registry: it clears the descriptor and leaves
everything else but `highest_descriptor`, which it never lowers. -/
theorem untrack_descriptor_spec (s : State) (l : List Nat) (fuel : Nat) (d : Int)
    (h : Linked s l) (hfuel : l.length ≤ fuel) :
    ∃ t, untrack_descriptor fuel d s = some t ∧
      t.memory = s.memory ∧ t.inputs.head = s.inputs.head ∧ t.inputs.tail = s.inputs.tail ∧
      t.inputs.descriptors = FD_CLR d s.inputs.descriptors ∧
      s.inputs.highest_descriptor ≤ t.inputs.highest_descriptor ∧
      (t.inputs.highest_descriptor = s.inputs.highest_descriptor ∨
        t.inputs.descriptors t.inputs.highest_descriptor = true) ∧
      t.pty = s.pty ∧ t.multiplexing = s.multiplexing ∧ t.diagnostics = s.diagnostics := by
  have key : ∀ s1 : State, s1.memory = s.memory → s1.inputs.tail = s.inputs.tail →
      ∃ hd, (if s1.inputs.highest_descriptor = d then find_highest_descriptor fuel s1
          else some s1) = some (with_highest hd s1) ∧
        s1.inputs.highest_descriptor ≤ hd ∧
        (hd = s1.inputs.highest_descriptor ∨ s1.inputs.descriptors hd = true) := by
    intro s1 hm ht
    by_cases hx : s1.inputs.highest_descriptor = d
    · have hp : PrevChain s1.memory none l := by
        rw [hm]
        exact h.2.2.2.2
      obtain ⟨hd, e, h1, h2⟩ := find_highest_loop_spec l fuel s1 hp hfuel
      refine ⟨hd, ?_, h1, h2⟩
      rw [if_pos hx, find_highest_descriptor, ht, h.2.2.1, ← lastOr_eq_getLast?, e]
    · exact ⟨s1.inputs.highest_descriptor, by rw [if_neg hx]; rfl, le_refl _, Or.inl rfl⟩
  by_cases hset : s.inputs.descriptors d = true
  · obtain ⟨s1, hs1⟩ : ∃ s1 : State, s1 =
        { s with inputs := { s.inputs with descriptors := FD_CLR d s.inputs.descriptors } } :=
      ⟨_, rfl⟩
    obtain ⟨hd, e, h1, h2⟩ := key s1 (by rw [hs1]) (by rw [hs1])
    refine ⟨with_highest hd s1, ?_, ?_, ?_, ?_, ?_, ?_, ?_, ?_, ?_, ?_⟩
    · simp only [untrack_descriptor, FD_ISSET, hset, if_true]
      rw [← hs1]
      have hh : s1.inputs.highest_descriptor = s.inputs.highest_descriptor := by rw [hs1]
      rw [← hh]
      exact e
    all_goals first
      | (rw [hs1]; rfl)
      | (rw [hs1] at h1; exact h1)
      | skip
    rcases h2 with h2 | h2
    · left
      rw [h2, hs1]
      rfl
    · right
      exact h2
  · obtain ⟨hd, e, h1, h2⟩ := key s rfl rfl
    have hfalse : s.inputs.descriptors d = false := by simpa using hset
    refine ⟨with_highest hd s, ?_, rfl, rfl, rfl, ?_, h1, ?_, rfl, rfl, rfl⟩
    · simp only [untrack_descriptor, FD_ISSET, hfalse]
      exact e
    · rw [FD_CLR_of_not_set d _ hfalse]
      rfl
    · exact h2

theorem enable_blocking_frame (fcntl : Fcntl) (s : State) :
    (enable_blocking fcntl s).2.memory = s.memory ∧
      (enable_blocking fcntl s).2.inputs = s.inputs ∧
      (enable_blocking fcntl s).2.pty = s.pty ∧
      (enable_blocking fcntl s).2.multiplexing = s.multiplexing := by
  unfold enable_blocking
  split_ifs <;> simp [perror]

/-- Function `remove_input` returns on a linked registry that holds the node: the node leaves the
list, the other nodes keep their order and their descriptors, the descriptor leaves the
set, and `highest_descriptor` is never lowered. -/
theorem remove_input_spec (s : State) (l : List Nat) (fuel : Nat) (fcntl : Fcntl) (a : Nat)
    (h : Linked s l) (ha : a ∈ l) (hfuel : l.length ≤ fuel) :
    ∃ t, remove_input fuel fcntl a s = some t ∧ Linked t (l.erase a) ∧
      (∀ x, (t.memory x).descriptor = (s.memory x).descriptor) ∧
      (t.memory a).next = (s.memory a).next ∧
      t.inputs.descriptors = FD_CLR (s.memory a).descriptor s.inputs.descriptors ∧
      s.inputs.highest_descriptor ≤ t.inputs.highest_descriptor ∧
      (t.inputs.highest_descriptor = s.inputs.highest_descriptor ∨
        t.inputs.descriptors t.inputs.highest_descriptor = true) ∧
      t.pty = s.pty ∧ t.multiplexing = s.multiplexing := by
  have hs0 : ∃ s0 : State, (if (s.memory a).descriptor = STDIN_FILENO then
      (enable_blocking fcntl s).2 else s) = s0 ∧ s0.memory = s.memory ∧ s0.inputs = s.inputs ∧
      s0.pty = s.pty ∧ s0.multiplexing = s.multiplexing := by
    split_ifs
    · exact ⟨_, rfl, enable_blocking_frame fcntl s⟩
    · exact ⟨s, rfl, rfl, rfl, rfl, rfl⟩
  obtain ⟨s0, e0, m0, i0, p0, x0⟩ := hs0
  have hl0 : Linked s0 l := Linked.congr s s0 l h m0 (by rw [i0]) (by rw [i0])
  obtain ⟨t, et, tm, th, tt, td, thi, thor, tp, tx, _⟩ :=
    untrack_descriptor_spec s0 l fuel (s0.memory a).descriptor hl0 hfuel
  have hlt : Linked t l := Linked.congr s0 t l hl0 tm th tt
  obtain ⟨f1, f2, f3, f4, _⟩ := unlink_input_frame t a
  refine ⟨unlink_input a t, ?_, unlink_input_linked_erase t l a hlt ha, ?_, ?_, ?_, ?_, ?_, ?_, ?_⟩
  · simp only [remove_input]
    rw [e0, et]
  · intro x
    rw [unlink_input_memory_descriptor, tm, m0]
  · rw [unlink_input_memory_next, tm, m0, if_neg]
    obtain ⟨l1, l2, rfl⟩ := List.append_of_mem ha
    have hpv := h.2.2.2.2
    rw [PrevChain_append] at hpv
    rw [hpv.2.1]
    intro hc
    have hmem := mem_of_lastOr _ _ hc
    exact (List.disjoint_left.1 (List.nodup_append.1 h.1).2.2 hmem) (by simp)
  · rw [f1, td, m0, i0]
  · rw [f2, ← i0]
    exact thi
  · rw [f2, f1, ← i0]
    exact thor
  · rw [f3, tp, p0]
  · rw [f4, tx, x0]

theorem nodes_after_length (l : List Nat) (op : Op) : (nodes_after l op).length ≤ l.length + 1 := by
  cases op with
  | add cell d =>
    cases cell <;> simp [nodes_after]
  | remove f a =>
    simp only [nodes_after]
    exact le_trans (List.length_erase_le a l) (Nat.le_succ _)

theorem fd_defined_iff (d : Int) : fd_defined d = true ↔ 0 ≤ d ∧ d < FD_SETSIZE := by
  simp [fd_defined]

theorem step_spec (fuel : Nat) (op : Op) (l : List Nat) (s : State) (h : Linked s l)
    (hc : Covered s) (hr : InRange s l) (hadm : Admissible l [op]) (hfuel : l.length ≤ fuel) :
    ∃ t, step fuel op s = some t ∧ Linked t (nodes_after l op) ∧ Covered t ∧
      InRange t (nodes_after l op) ∧
      s.inputs.highest_descriptor ≤ t.inputs.highest_descriptor := by
  cases op with
  | add cell d =>
    cases cell with
    | none =>
      refine ⟨_, rfl, ?_, ?_, ?_, ?_⟩
      · exact Linked.congr s _ l h rfl rfl rfl
      · exact hc
      · exact hr
      · exact le_refl _
    | some a =>
      have ha : a ∉ l := hadm.1 a rfl
      have hdr : fd_defined d = true := (fd_defined_iff d).2 hadm.2.1
      obtain ⟨_, hl, hdesc, hd, hh, _, _⟩ := add_input_linked s l a d h ha
      refine ⟨_, by simp only [step, hdr, if_true], hl, ?_, ?_, ?_⟩
      · intro x hx
        rw [hd] at hx
        rw [hh]
        by_cases hxd : x = d
        · rw [hxd]
          exact le_max_right _ _
        · simp only [FD_ISSET, FD_SET, hxd, if_false] at hx
          exact le_trans (hc x hx) (le_max_left _ _)
      · intro x hx
        have hmem : ((add_input (some a) d s).2.memory x).descriptor ∈
            descriptors_of (add_input (some a) d s).2 (l ++ [a]) :=
          List.mem_map_of_mem _ hx
        rw [hdesc, List.mem_append] at hmem
        rcases hmem with hmem | hmem
        · obtain ⟨y, hy, e⟩ := List.mem_map.1 hmem
          rw [← e]
          exact hr y hy
        · simp only [List.mem_singleton] at hmem
          rw [hmem]
          exact hdr
      · rw [hh]
        exact le_max_left _ _
  | remove f a =>
    have ha : a ∈ l := hadm.1
    obtain ⟨t, e, hl, hdesc, _, hd, hle, _, _, _⟩ := remove_input_spec s l fuel f a h ha hfuel
    refine ⟨t, by simp only [step, hr a ha, if_true]; exact e, hl, ?_, ?_, hle⟩
    · intro x hx
      rw [hd] at hx
      by_cases hxd : x = (s.memory a).descriptor
      · simp [FD_ISSET, FD_CLR, hxd] at hx
      · simp only [FD_ISSET, FD_CLR, hxd, if_false] at hx
        exact le_trans (hc x hx) hle
    · intro x hx
      rw [hdesc x]
      exact hr x (List.mem_of_mem_erase hx)

theorem Admissible_append (l : List Nat) (ops : List Op) (op : Op) :
    Admissible l (ops ++ [op]) → Admissible l ops ∧ Admissible (ops.foldl nodes_after l) [op] := by
  induction ops generalizing l with
  | nil =>
    intro h
    exact ⟨trivial, h⟩
  | cons o ops ih =>
    intro h
    cases o with
    | add cell d =>
      obtain ⟨h1, h2, h3⟩ := h
      obtain ⟨i1, i2⟩ := ih _ h3
      exact ⟨⟨h1, h2, i1⟩, i2⟩
    | remove f a =>
      obtain ⟨h1, h3⟩ := h
      obtain ⟨i1, i2⟩ := ih _ h3
      exact ⟨⟨h1, i1⟩, i2⟩

theorem Admissible_head (l : List Nat) (op : Op) (ops : List Op) :
    Admissible l (op :: ops) → Admissible l [op] ∧ Admissible (nodes_after l op) ops := by
  intro h
  cases op with
  | add cell d => exact ⟨⟨h.1, h.2.1, trivial⟩, h.2.2⟩
  | remove f a => exact ⟨⟨h.1, trivial⟩, h.2⟩

theorem run_spec (fuel : Nat) (ops : List Op) (l : List Nat) (s : State) (h : Linked s l)
    (hc : Covered s) (hr : InRange s l) (hadm : Admissible l ops)
    (hfuel : l.length + ops.length ≤ fuel) :
    ∃ t, run fuel ops s = some t ∧ Linked t (ops.foldl nodes_after l) ∧ Covered t ∧
      InRange t (ops.foldl nodes_after l) ∧
      s.inputs.highest_descriptor ≤ t.inputs.highest_descriptor ∧
      (ops.foldl nodes_after l).length ≤ l.length + ops.length := by
  induction ops generalizing l s with
  | nil => exact ⟨s, rfl, h, hc, hr, le_refl _, le_refl _⟩
  | cons op ops ih =>
    obtain ⟨a1, a2⟩ := Admissible_head l op ops hadm
    simp only [List.length_cons] at hfuel
    obtain ⟨t, e, hl, hct, hrt, hle⟩ := step_spec fuel op l s h hc hr a1 (by omega)
    have hlen := nodes_after_length l op
    obtain ⟨u, eu, hlu, hcu, hru, hleu, hlenu⟩ :=
      ih (nodes_after l op) t hl hct hrt a2 (by omega)
    refine ⟨u, ?_, hlu, hcu, hru, le_trans hle hleu, ?_⟩
    · simp only [run, e]
      exact eu
    · simp only [List.foldl_cons, List.length_cons]
      omega

theorem initial_linked : Linked initial [] := by
  simp [Linked, initial, NextChain, PrevChain]

theorem initial_covered : Covered initial := by
  intro d hd
  simp [FD_ISSET, initial] at hd

/-! ## Claims about the input registry -/

/-- C1 (code defect): after `add_input(3)`, `add_input(5)` and `remove_input` of the input
holding 5, the list holds only the input with descriptor 3, which is in the readiness
set, while 5 is not; yet `highest_descriptor` is still 5, not the maximum 3 of the
remaining inputs. `find_highest_descriptor` compares against the stale value. -/
theorem highest_descriptor_stale_after_removing_maximum :
    ∃ s, run 2 [.add (some 1) 3, .add (some 2) 5, .remove ⟨0, 0⟩ 2] initial = some s ∧
      walk_next s.memory 2 s.inputs.head = some [1] ∧
      descriptors_of s [1] = [3] ∧
      FD_ISSET 3 s.inputs.descriptors = true ∧
      FD_ISSET 5 s.inputs.descriptors = false ∧
      s.inputs.highest_descriptor = 5 :=
  ⟨_, rfl, by decide, by decide, by decide, by decide, by decide⟩

/-- C3: link any number of distinct zeroed nodes into an empty registry with `link_input`,
then remove any of them in any order with `unlink_input`. After the removals the head has
no previous node, the tail has no next node, following `next` from the head visits
exactly the remaining nodes in their original order, following `previous` from the tail
visits them in the reverse order, and head and tail are null exactly when no node
remains. -/
theorem unlink_input_keeps_list_well_formed (s0 : State) (nodes removed : List Nat)
    (fuel : Nat) (hhead : s0.inputs.head = none) (htail : s0.inputs.tail = none)
    (hzero : ∀ a ∈ nodes, (s0.memory a).previous = none ∧ (s0.memory a).next = none)
    (hnodes : nodes.Nodup) (hremoved : removed.Nodup) (hsub : removed ⊆ nodes)
    (hfuel : nodes.length ≤ fuel) :
    (∀ a, (unlink_inputs removed (link_inputs nodes s0)).inputs.head = some a →
        ((unlink_inputs removed (link_inputs nodes s0)).memory a).previous = none) ∧
      (∀ a, (unlink_inputs removed (link_inputs nodes s0)).inputs.tail = some a →
        ((unlink_inputs removed (link_inputs nodes s0)).memory a).next = none) ∧
      walk_next (unlink_inputs removed (link_inputs nodes s0)).memory fuel
          (unlink_inputs removed (link_inputs nodes s0)).inputs.head =
        some (nodes.filter (fun a => decide (a ∉ removed))) ∧
      walk_previous (unlink_inputs removed (link_inputs nodes s0)).memory fuel
          (unlink_inputs removed (link_inputs nodes s0)).inputs.tail =
        some (nodes.filter (fun a => decide (a ∉ removed))).reverse ∧
      ((unlink_inputs removed (link_inputs nodes s0)).inputs.head = none ↔
        nodes.filter (fun a => decide (a ∉ removed)) = []) ∧
      ((unlink_inputs removed (link_inputs nodes s0)).inputs.tail = none ↔
        nodes.filter (fun a => decide (a ∉ removed)) = []) := by
  have h0 : Linked s0 [] := by
    simp [Linked, hhead, htail, NextChain, PrevChain]
  have h1 : Linked (link_inputs nodes s0) nodes := by
    have := link_inputs_linked nodes s0 [] h0 (fun a ha => ⟨by simp, hzero a ha⟩) hnodes
    simpa using this
  have h2 := unlink_inputs_linked removed _ nodes h1 hsub hremoved
  rw [List.Nodup.diff_eq_filter hnodes] at h2
  have hlen : (nodes.filter (fun a => decide (a ∉ removed))).length ≤ fuel :=
    le_trans (List.length_filter_le _ _) hfuel
  refine ⟨Linked.head_previous _ _ h2, Linked.tail_next _ _ h2,
    Linked.walk_next_eq _ _ _ h2 hlen, Linked.walk_previous_eq _ _ _ h2 hlen, ?_, ?_⟩
  · rw [h2.2.1, List.head?_eq_none_iff]
  · rw [h2.2.2.1, List.getLast?_eq_none_iff]

/-- C3 at three nodes: nodes 1, 2, 3 are linked, then 2 (interior) and 3 (tail) are removed. -/
theorem unlink_input_keeps_list_well_formed_witness :
    walk_next (unlink_inputs [2, 3] (link_inputs [1, 2, 3] initial)).memory 3
        (unlink_inputs [2, 3] (link_inputs [1, 2, 3] initial)).inputs.head = some [1] ∧
      walk_previous (unlink_inputs [2, 3] (link_inputs [1, 2, 3] initial)).memory 3
        (unlink_inputs [2, 3] (link_inputs [1, 2, 3] initial)).inputs.tail = some [1] :=
  have h := unlink_input_keeps_list_well_formed initial [1, 2, 3] [2, 3] 3 rfl rfl
    (fun _ _ => ⟨rfl, rfl⟩) (by decide) (by decide) (by decide) (by decide)
  ⟨h.2.2.1, h.2.2.2.1⟩

/-- C10 (as stated, false): 1034 is a non-negative descriptor, but `add_input(1034)`
applies `FD_ISSET` and `FD_SET` beyond the `FD_SETSIZE` bits of `inputs.descriptors`,
where the macros are not defined: whatever the fuel, the operation has no defined
result, so nothing is established about the readiness set or `highest_descriptor`
after it. -/
theorem add_input_beyond_fd_setsize_is_undefined :
    (0 : Int) ≤ 1034 ∧
      ¬ ∃ fuel s t, run fuel [] initial = some s ∧
        step fuel (.add (some 1) 1034) s = some t ∧
        (∀ d, FD_ISSET d t.inputs.descriptors = true →
          d ≤ t.inputs.highest_descriptor ∧ d < nfds t) ∧
        s.inputs.highest_descriptor ≤ t.inputs.highest_descriptor := by
  refine ⟨by decide, ?_⟩
  rintro ⟨fuel, s, t, _, h, _⟩
  have hd : fd_defined 1034 = false := by decide
  simp [step, hd] at h

/-- C10 (amended): apply any sequence of `add_input` and `remove_input` operations with
descriptors in the range of `fd_set` (`0 ≤ descriptor < FD_SETSIZE`) to the initially
empty registry (`highest_descriptor = 0`), with enough fuel for the scans. Every
operation returns; after it every descriptor of the readiness set is at most
`highest_descriptor`, hence below the bound `highest_descriptor + 1` passed to `select`,
and `highest_descriptor` is not lower than before the operation. -/
theorem highest_descriptor_covers_and_never_decreases (fuel : Nat) (ops : List Op) (op : Op)
    (hadm : Admissible [] (ops ++ [op])) (hfuel : (ops ++ [op]).length ≤ fuel) :
    ∃ s t, run fuel ops initial = some s ∧ step fuel op s = some t ∧
      (∀ d, FD_ISSET d t.inputs.descriptors = true →
        d ≤ t.inputs.highest_descriptor ∧ d < nfds t) ∧
      s.inputs.highest_descriptor ≤ t.inputs.highest_descriptor := by
  obtain ⟨a1, a2⟩ := Admissible_append [] ops op hadm
  simp only [List.length_append, List.length_singleton] at hfuel
  obtain ⟨s, es, hl, hc, hr, _, hlen⟩ :=
    run_spec fuel ops [] initial initial_linked initial_covered (fun _ hx => by simp at hx)
      a1 (by simp; omega)
  simp only [List.length_nil, Nat.zero_add] at hlen
  obtain ⟨t, et, _, hct, _, hle⟩ := step_spec fuel op _ s hl hc hr a2 (by omega)
  refine ⟨s, t, es, et, ?_, hle⟩
  intro d hd
  have := hct d hd
  exact ⟨this, by unfold nfds; omega⟩

/-- C10 (amended) on the sequence add 3, add 5, remove the input holding 5. -/
theorem highest_descriptor_covers_and_never_decreases_witness :
    ∃ s t, run 3 [.add (some 1) 3, .add (some 2) 5] initial = some s ∧
      step 3 (.remove ⟨0, 0⟩ 2) s = some t ∧
      (∀ d, FD_ISSET d t.inputs.descriptors = true →
        d ≤ t.inputs.highest_descriptor ∧ d < nfds t) ∧
      s.inputs.highest_descriptor ≤ t.inputs.highest_descriptor :=
  highest_descriptor_covers_and_never_decreases 3 [.add (some 1) 3, .add (some 2) 5]
    (.remove ⟨0, 0⟩ 2) (by simp [Admissible, nodes_after, FD_SETSIZE]) (by decide)

/-! ## Claims about the service operation -/

/-- C2 (code defect): `service` reads the chunk `[97, 98]` from standard input and the pty
master accepts one byte per `write`. Every `write` is given the start of `buffer`, so the
pty master receives `[97, 97]`, not the chunk `[97, 98]`, and `service` returns success. -/
theorem service_resends_buffer_start :
    (service 0 ⟨2, [97, 98], [1, 1], ⟨0, 0⟩⟩ 1 3
        (add_input (some 1) STDIN_FILENO (open_pty 3 4 initial).2).2).map
      (fun r => (r.ok, r.output, r.delivered)) = some (true, 3, [97, 97]) := by
  decide

/-- C6: when `read` on standard input returns zero, `service` returns failure and leaves
the state, hence every input of the registry, as it was; the scan of `multiplex` then
clears `multiplexing` and ends having serviced no input after this one, and the relay
loop, finding the flag cleared, is left without another wait. -/
theorem stdin_end_of_input_stops_relay_loop (s : State) (a : Nat) (fuel n : Nat)
    (active : fd_set) (calls : Nat → ServiceEv) (events : List SelectEv)
    (hstdin : (s.memory a).descriptor = STDIN_FILENO)
    (hready : FD_ISSET STDIN_FILENO active = true) (heof : (calls a).pending = 0) :
    (∃ output, service fuel (calls a) a s.pty.master s = some ⟨false, s, output, []⟩) ∧
      scan fuel active calls (n + 1) (some a) s = some (stop_multiplexing s, [a]) ∧
      (stop_multiplexing s).memory = s.memory ∧
      (stop_multiplexing s).inputs = s.inputs ∧
      (stop_multiplexing s).multiplexing = false ∧
      multiplex_loop fuel events (stop_multiplexing s) =
        some (true, stop_multiplexing s, []) := by
  have hsrv : service fuel (calls a) a s.pty.master s =
      some ⟨false, s, if (s.memory a).descriptor = s.pty.master then STDOUT_FILENO
        else s.pty.master, []⟩ := by
    simp [service, heof, hstdin]
  refine ⟨⟨_, hsrv⟩, ?_, rfl, rfl, rfl, ?_⟩
  · simp [scan, hstdin, hready, hsrv]
  · cases events <;> simp [multiplex_loop, stop_multiplexing]

/-- C6 on the registry `{stdin, pty master}` with standard input at end of input. -/
theorem stdin_end_of_input_stops_relay_loop_witness :
    scan 2 (fun d => decide (d = 0)) (fun _ => ⟨0, [], [], ⟨0, 0⟩⟩) 2 (some 1)
        (add_input (some 2) 3 (add_input (some 1) STDIN_FILENO (open_pty 3 4 initial).2).2).2 =
      some (stop_multiplexing
        (add_input (some 2) 3 (add_input (some 1) STDIN_FILENO (open_pty 3 4 initial).2).2).2,
        [1]) :=
  (stdin_end_of_input_stops_relay_loop
    (add_input (some 2) 3 (add_input (some 1) STDIN_FILENO (open_pty 3 4 initial).2).2).2
    1 2 1 (fun d => decide (d = 0)) (fun _ => ⟨0, [], [], ⟨0, 0⟩⟩) []
    (by decide) (by decide) rfl).2.1

/-! ### The flag during a scan -/

theorem find_highest_loop_multiplexing (fuel : Nat) (p : Pointer) (s t : State)
    (h : find_highest_loop fuel p s = some t) : t.multiplexing = s.multiplexing := by
  induction fuel generalizing p s with
  | zero =>
    cases p with
    | none =>
      simp only [find_highest_loop, Option.some.injEq] at h
      rw [h]
    | some a => simp [find_highest_loop] at h
  | succ fuel ih =>
    cases p with
    | none =>
      simp only [find_highest_loop, Option.some.injEq] at h
      rw [h]
    | some a =>
      simp only [find_highest_loop] at h
      rw [ih _ _ h]
      split_ifs <;> rfl

theorem untrack_descriptor_multiplexing (fuel : Nat) (d : Int) (s t : State)
    (h : untrack_descriptor fuel d s = some t) : t.multiplexing = s.multiplexing := by
  have key : ∀ s1 : State, s1.multiplexing = s.multiplexing →
      (if s1.inputs.highest_descriptor = d then find_highest_descriptor fuel s1
        else some s1) = some t → t.multiplexing = s.multiplexing := by
    intro s1 hm hk
    split_ifs at hk
    · rw [find_highest_loop_multiplexing _ _ _ _ hk, hm]
    · simp only [Option.some.injEq] at hk
      rw [← hk, hm]
  by_cases hset : FD_ISSET d s.inputs.descriptors = true
  · exact key
      { s with inputs := { s.inputs with descriptors := FD_CLR d s.inputs.descriptors } } rfl
      (by simpa only [untrack_descriptor, hset, if_true] using h)
  · exact key s rfl (by simpa only [untrack_descriptor, hset, if_false] using h)

theorem remove_input_multiplexing (fuel : Nat) (fcntl : Fcntl) (a : Nat) (s t : State)
    (h : remove_input fuel fcntl a s = some t) : t.multiplexing = s.multiplexing := by
  simp only [remove_input] at h
  split at h
  · simp at h
  · rename_i s1 heq
    simp only [Option.some.injEq] at h
    rw [← h, (unlink_input_frame s1 a).2.2.2.1, untrack_descriptor_multiplexing _ _ _ _ heq]
    split_ifs
    · exact (enable_blocking_frame fcntl s).2.2.2
    · rfl

theorem service_multiplexing (fuel : Nat) (ev : ServiceEv) (a : Nat) (output : Int)
    (s : State) (r : Serviced) (h : service fuel ev a output s = some r) :
    r.state.multiplexing = s.multiplexing := by
  simp only [service] at h
  by_cases h1 : ev.pending = -1
  · simp only [h1, if_true, Option.some.injEq] at h
    rw [← h]
  · simp only [h1, if_false] at h
    by_cases h2 : ev.pending = 0
    · simp only [h2, if_true] at h
      by_cases h3 : (s.memory a).descriptor = STDIN_FILENO
      · simp only [h3, if_true, Option.some.injEq] at h
        rw [← h]
      · simp only [h3, if_false] at h
        cases hr : remove_input fuel ev.fcntl a s with
        | none => simp [hr] at h
        | some s1 =>
          simp only [hr, Option.some.injEq] at h
          rw [← h]
          exact remove_input_multiplexing _ _ _ _ _ hr
    · simp only [h2, if_false] at h
      cases hw : write_loop ev.buffer ev.written ev.pending with
      | none => simp [hw] at h
      | some q =>
        simp only [hw, Option.some.injEq] at h
        rw [← h]

/-- A scan that starts with the flag set and ends with it cleared has called `service` on
an input for which it returned failure. -/
theorem scan_clears_flag_only_on_service_failure (fuel n : Nat) (active : fd_set)
    (calls : Nat → ServiceEv) (p : Pointer) (s s1 : State) (serviced : List Nat)
    (h : scan fuel active calls n p s = some (s1, serviced))
    (hrun : s.multiplexing = true) (hstop : s1.multiplexing = false) :
    ∃ a t r, a ∈ serviced ∧ service fuel (calls a) a t.pty.master t = some r ∧
      r.ok = false := by
  induction n generalizing p s serviced with
  | zero =>
    cases p with
    | none =>
      simp only [scan, Option.some.injEq, Prod.mk.injEq] at h
      rw [← h.1, hrun] at hstop
      simp at hstop
    | some a => simp [scan] at h
  | succ n ih =>
    cases p with
    | none =>
      simp only [scan, Option.some.injEq, Prod.mk.injEq] at h
      rw [← h.1, hrun] at hstop
      simp at hstop
    | some a =>
      simp only [scan] at h
      split_ifs at h with hready
      · cases hsrv : service fuel (calls a) a s.pty.master s with
        | none => simp [hsrv] at h
        | some r =>
          simp only [hsrv] at h
          cases hok : r.ok with
          | false =>
            simp only [hok, Bool.not_false, if_true, Option.some.injEq, Prod.mk.injEq] at h
            exact ⟨a, s, r, by simp [← h.2], hsrv, hok⟩
          | true =>
            simp only [hok, Bool.not_true, Bool.false_eq_true, if_false] at h
            cases hrest : scan fuel active calls n (s.memory a).next r.state with
            | none => simp [hrest] at h
            | some q =>
              obtain ⟨s2, later⟩ := q
              simp only [hrest, Option.some.injEq, Prod.mk.injEq] at h
              have hrun2 : r.state.multiplexing = true := by
                rw [service_multiplexing _ _ _ _ _ _ hsrv, hrun]
              rw [h.1] at hrest
              obtain ⟨b, t, r2, hb, h1, h2⟩ := ih _ _ _ hrest hrun2
              exact ⟨b, t, r2, by simp [← h.2, hb], h1, h2⟩
      · exact ih _ _ _ h hrun

/-- Each of the three causes makes `service` return failure and leave the state as it
is. -/
theorem service_of_fails (fuel : Nat) (ev : ServiceEv) (a : Nat) (output : Int) (s : State)
    (h : ServiceFails ev (s.memory a).descriptor) :
    ∃ out delivered, service fuel ev a output s = some ⟨false, s, out, delivered⟩ := by
  rcases h with h | ⟨h0, hd⟩ | ⟨h1, h0, delivered, hw⟩
  · exact ⟨if (s.memory a).descriptor = output then STDOUT_FILENO else output, [],
      by simp [service, h]⟩
  · exact ⟨if (s.memory a).descriptor = output then STDOUT_FILENO else output, [],
      by simp [service, h0, hd]⟩
  · exact ⟨if (s.memory a).descriptor = output then STDOUT_FILENO else output, delivered,
      by simp [service, h1, h0, hw]⟩

/-! ## Claims about the relay loop -/

/-- The relay loop returns failure only after a `select` that returned `-1`. -/
theorem multiplex_loop_false_only_on_wait_failure (fuel : Nat) (events : List SelectEv)
    (s : State) (r : Bool × State × List Nat)
    (h : multiplex_loop fuel events s = some r) (hr : r.1 = false) :
    ∃ ev ∈ events, ev.pending = -1 := by
  induction events generalizing s r with
  | nil =>
    simp only [multiplex_loop] at h
    split_ifs at h
    simp only [Option.some.injEq] at h
    rw [← h] at hr
    simp at hr
  | cons ev rest ih =>
    simp only [multiplex_loop] at h
    by_cases h1 : s.multiplexing = true
    · simp only [h1, Bool.not_true, Bool.false_eq_true, if_false] at h
      generalize (if ev.signal = true then stop_multiplexing s else s) = s0 at h
      by_cases h2 : ev.pending = -1
      · exact ⟨ev, by simp, h2⟩
      · simp only [h2, if_false] at h
        by_cases h3 : ev.pending = 0
        · simp only [h3, if_true] at h
          obtain ⟨e, he, hp⟩ := ih _ _ h hr
          exact ⟨e, by simp [he], hp⟩
        · simp only [h3, if_false] at h
          cases hsc : scan fuel ev.active ev.calls fuel s0.inputs.head s0 with
          | none => simp [hsc] at h
          | some p =>
            obtain ⟨s1, serviced⟩ := p
            simp only [hsc] at h
            cases hl : multiplex_loop fuel rest s1 with
            | none => simp [hl] at h
            | some q =>
              obtain ⟨result, s2, later⟩ := q
              simp only [hl, Option.some.injEq] at h
              rw [← h] at hr
              obtain ⟨e, he, hp⟩ := ih _ _ hl hr
              exact ⟨e, by simp [he], hp⟩
    · simp only [h1, Bool.not_false, if_true, Option.some.injEq] at h
      rw [← h] at hr
      simp at hr

/-- C7 (as stated, false): in a run where `read` on standard input fails, `service` returns
failure and the relay loop stops (flag cleared, one input serviced), yet `multiplex`
returns `true` and `main` ends with exit status `EXIT_SUCCESS`. -/
theorem service_failure_exits_with_success :
    (service 2 read_error 1 3 relaying).map (fun r => r.ok) = some false ∧
      (multiplex 2 session_with_read_error.multiplex (open_pty 3 4 initial).2).map
        (fun r => (r.1, r.2.1.multiplexing, r.2.2)) = some (true, false, [1]) ∧
      (main 2 session_with_read_error).map (fun r => r.1) = some EXIT_SUCCESS := by
  decide

/-- C7 (amended): in an iteration of the relay loop whose `select` reports ready
descriptors, let the scan come to a ready input on which `service` fails: `read` fails,
or `read` returns zero on standard input, or a `write` fails. Then `service` returns
failure leaving the state as it is, the scan clears `multiplexing` and ends with this
input the last one serviced, and `multiplex` leaves the loop and returns `true`, so
that `main` ends with `EXIT_SUCCESS`. `multiplex` returns `false` only when the
admission of standard input or of the pty master fails or a `select` returns `-1`. -/
theorem service_failure_ends_multiplex_with_success (fuel k : Nat) (ev : SelectEv)
    (rest : List SelectEv) (s s0 t : State) (done : List Nat) (a : Nat)
    (hrun : s.multiplexing = true)
    (hs0 : s0 = if ev.signal = true then stop_multiplexing s else s)
    (hwait : ev.pending ≠ -1) (hpending : ev.pending ≠ 0)
    (hreach : ScanReaches fuel ev.active ev.calls k s0.inputs.head s0 done a t)
    (hready : FD_ISSET (t.memory a).descriptor ev.active = true)
    (hfail : ServiceFails (ev.calls a) (t.memory a).descriptor)
    (hfuel : k < fuel) :
    (∃ output delivered,
        service fuel (ev.calls a) a t.pty.master t = some ⟨false, t, output, delivered⟩) ∧
      scan fuel ev.active ev.calls fuel s0.inputs.head s0 =
        some (stop_multiplexing t, done ++ [a]) ∧
      (stop_multiplexing t).multiplexing = false ∧
      multiplex_loop fuel (ev :: rest) s = some (true, stop_multiplexing t, done ++ [a]) ∧
      (∀ (env : MultiplexEnv) (u u1 u2 : State),
        add_standard_input env.stdin_fcntl env.stdin_cell u = (true, u1) →
        add_input env.master_cell u1.pty.master u1 = (true, u2) →
        multiplex fuel env u =
          multiplex_loop fuel env.events { u2 with multiplexing := true }) ∧
      (∀ (env : MultiplexEnv) (u : State) (r : Bool × State × List Nat),
        multiplex fuel env u = some r → r.1 = false →
          (add_standard_input env.stdin_fcntl env.stdin_cell u).1 = false ∨
          (add_input env.master_cell
            (add_standard_input env.stdin_fcntl env.stdin_cell u).2.pty.master
            (add_standard_input env.stdin_fcntl env.stdin_cell u).2).1 = false ∨
          ∃ e ∈ env.events, e.pending = -1) ∧
      (∀ env : MainEnv, env.isatty = true → env.atexit = 0 →
        env.handle_signals = true → env.reconfigure_ctty = true →
        env.pid ≠ -1 → env.pid ≠ 0 →
        ∀ s2 s3 s4 later,
          parse_command_line env.arguments env.target initial = (.returned true, s2) →
          open_pty env.pty_master env.pty_slave s2 = (true, s3) →
          multiplex fuel env.multiplex s3 = some (true, s4, later) →
          main fuel env = some (EXIT_SUCCESS, s4, later)) := by
  obtain ⟨output, delivered, hsrv⟩ := service_of_fails fuel (ev.calls a) a t.pty.master t hfail
  have hall : ∀ n, k < n → scan fuel ev.active ev.calls n s0.inputs.head s0 =
      some (stop_multiplexing t, done ++ [a]) := by
    clear hs0 hrun hfuel hfail
    generalize s0.inputs.head = p at hreach
    induction hreach with
    | here a s =>
      intro n hn
      cases n with
      | zero => omega
      | succ n => simp [scan, hready, hsrv]
    | skip k b s done a t hidle _ ih =>
      intro n hn
      cases n with
      | zero => omega
      | succ n =>
        have := ih hready hsrv n (by omega)
        simp [scan, hidle, this]
    | serviced k b s r1 done a t hready1 hservice hok1 _ ih =>
      intro n hn
      cases n with
      | zero => omega
      | succ n =>
        have := ih hready hsrv n (by omega)
        simp [scan, hready1, hservice, hok1, this]
  have hscan := hall fuel hfuel
  have hnext : multiplex_loop fuel rest (stop_multiplexing t) =
      some (true, stop_multiplexing t, []) := by
    cases rest <;> simp [multiplex_loop, stop_multiplexing]
  refine ⟨⟨output, delivered, hsrv⟩, hscan, rfl, ?_, ?_, ?_, ?_⟩
  · simp only [multiplex_loop, hrun, Bool.not_true, Bool.false_eq_true, if_false, hwait,
      hpending, ← hs0, hscan, hnext, List.append_nil]
  · intro env u u1 u2 h1 h2
    simp only [multiplex, h1, h2]
  · intro env u r hm hr
    simp only [multiplex] at hm
    cases h1 : add_standard_input env.stdin_fcntl env.stdin_cell u with
    | mk b1 u1 =>
      cases b1 with
      | false => exact Or.inl rfl
      | true =>
        simp only [h1] at hm
        cases h2 : add_input env.master_cell u1.pty.master u1 with
        | mk b2 u2 =>
          cases b2 with
          | false => exact Or.inr (Or.inl rfl)
          | true =>
            simp only [h2] at hm
            exact Or.inr (Or.inr (multiplex_loop_false_only_on_wait_failure fuel _ _ r hm hr))
  · intro env h1 h2 h3 h4 h5 h6 s2 s3 s4 later hp ho hm
    simp [main, h1, h2, h3, h4, h5, h6, hp, ho, hm]

/-- C7 (amended) on the registry `{stdin, pty master}`: standard input is not ready, the
pty master is, and the `write` of what was read from it fails. -/
theorem service_failure_ends_multiplex_with_success_witness :
    multiplex_loop 2 [⟨1, 0, fun d => decide (d = 3), false, fun _ => write_error⟩] relaying =
      some (true, stop_multiplexing relaying, [] ++ [2]) :=
  (service_failure_ends_multiplex_with_success 2 1
    ⟨1, 0, fun d => decide (d = 3), false, fun _ => write_error⟩ [] relaying relaying relaying
    [] 2 rfl rfl (by decide) (by decide)
    (ScanReaches.skip 0 1 relaying [] 2 relaying (by decide) (ScanReaches.here 2 relaying))
    (by decide) (Or.inr (Or.inr ⟨by decide, by decide, [], rfl⟩)) (by decide)).2.2.2.1

/-- C8 (as stated, false): `select` fails with `EINTR` while the flag is still set (no
handler of the program ran); `multiplex` does not go on to the next iteration, it clears
the flag and returns `false`. -/
theorem interrupted_wait_returns_failure :
    (multiplex_loop 2 [⟨-1, EINTR, fun _ => false, false, fun _ => one_byte⟩,
        ⟨0, 0, fun _ => false, false, fun _ => one_byte⟩] relaying).map
      (fun r => (r.1, r.2.1.multiplexing, r.2.1.diagnostics)) = some (false, false, []) := by
  decide

/-- C8 (amended): whenever `select` returns `-1` in an iteration of the relay loop,
interrupted or not, `multiplex` clears the flag and returns `false` without servicing
any input; `EINTR` only spares the line `multiplex: select` on the error stream. -/
theorem wait_failure_stops_relay_loop (fuel : Nat) (ev : SelectEv) (rest : List SelectEv)
    (s : State) (hrun : s.multiplexing = true) (hwait : ev.pending = -1) :
    multiplex_loop fuel (ev :: rest) s =
      some (false,
        stop_multiplexing (if ev.errno ≠ EINTR then perror .multiplex_select s else s), []) := by
  cases hs : ev.signal <;> by_cases he : ev.errno = EINTR <;>
    simp [multiplex_loop, hrun, hwait, hs, he, stop_multiplexing, perror]

/-- C8 (amended) on the registry `{stdin, pty master}` with an interrupted `select`. -/
theorem wait_failure_stops_relay_loop_witness :
    multiplex_loop 2 [⟨-1, EINTR, fun _ => false, false, fun _ => one_byte⟩] relaying =
      some (false, stop_multiplexing
        (if EINTR ≠ EINTR then perror .multiplex_select relaying else relaying), []) :=
  wait_failure_stops_relay_loop 2 ⟨-1, EINTR, fun _ => false, false, fun _ => one_byte⟩ []
    relaying rfl rfl

/-! ## Claims about the order of admission -/

end Iix
